import Mathlib

/-
Verification of the order-theoretic core of the Hasse-diagram poset engine
(src/hasse.py).  The Python class `Poset` is shallowly embedded below:

* the element set and the raw relation list are `List α` / `List (α × α)`
  over an arbitrary type `α` with decidable equality (Python elements are
  opaque hashable values);
* Python dictionaries keyed by the elements (`visited`, `stack`, `levels`)
  are embedded as membership in a `List α` (boolean-valued dictionaries whose
  true-keys form a set) or as total functions `α → Int` (the integer-valued
  `levels` dictionary); the embedding is faithful on every execution in which
  each dictionary access uses a key of the dictionary, which is exactly the
  regime the specification assumes (every relation endpoint belongs to the
  element set);
* the Python `while` loops and the recursive depth-first search are embedded
  with an explicit fuel parameter; lemmas below prove the chosen fuel
  sufficient under the hypotheses of the corresponding claims, so that the
  fuel-exhaustion branch is unreachable there;
* Python `list.append` plus `list.pop()` is a LIFO stack; it is embedded as
  cons/head on a `List α`, which pops elements in the identical order;
* Python truthiness (`if not self.upper_bound(x, y)`) depends on the element
  type, so the embedding of `is_lattice` takes the truthiness test of the
  element type as a parameter `truthy : α → Bool` (for `Int` elements it is
  `fun n => n ≠ 0`, matching `bool(int)` in Python).
-/

namespace HassePoset

set_option linter.unusedSectionVars false

variable {α : Type} [DecidableEq α]

/-- A directed path of length `n` from `a` to `b` along pairs of the edge
list `E` (the reflexive-transitive chain of edges, with its length). -/
inductive PathTo (E : List (α × α)) : α → α → Nat → Prop where
  | refl (a : α) : PathTo E a a 0
  | tail {a b c : α} {n : Nat} : PathTo E a b n → (b, c) ∈ E → PathTo E a c (n + 1)

/-- Reachability along the edge list `E`: some path of any length. -/
def Reach (E : List (α × α)) (a b : α) : Prop := ∃ n, PathTo E a b n

/-- The edge list `E` contains a directed cycle: a nonempty path from some
vertex back to itself. -/
def HasCycle (E : List (α × α)) : Prop := ∃ x n, PathTo E x x (n + 1)

/-- The set `to_remove` of `Poset.build_hasse_diagram` (src/hasse.py lines
30-34): all pairs `(a, d)` such that raw relations `(a, b)` and `(c, d)` with
`b == c` exist and `(a, d)` itself occurs in the (still unreduced) relation
list. -/
def hasse_to_remove (relations : List (α × α)) : List (α × α) :=
  relations.flatMap fun p =>
    relations.filterMap fun q =>
      if p.2 = q.1 ∧ (p.1, q.2) ∈ relations then some (p.1, q.2) else none

/-- `Poset.build_hasse_diagram` (src/hasse.py lines 28-35): copy the raw
relation list and drop every pair contained in `to_remove`. -/
def build_hasse_diagram (relations : List (α × α)) : List (α × α) :=
  relations.filter fun rel => decide (rel ∉ hasse_to_remove relations)

/-- The covering-edge list that the specification of the RelationReducer
describes, written from the spec's words: a pair `(a, d)` is removed iff the
raw list contains a two-hop chain `(a, b)`, `(b, d)`; kept otherwise. -/
def spec_reduced (relations : List (α × α)) : List (α × α) :=
  relations.filter fun rel =>
    decide (¬ ∃ p ∈ relations, p.1 = rel.1 ∧ (p.2, rel.2) ∈ relations)

/-- The edge-scanning `for` loop inside one iteration of the `while` loop of
`Poset.has_path` (src/hasse.py lines 84-89) for the popped `node`: walk the
edge list; on an edge `(node, b)` with `b` unvisited, either stop because
`b` is the target (`none`) or mark `b` visited and push it. -/
def hpScan (endv node : α) : List (α × α) → List α → List α → Option (List α × List α)
  | [], vis, stk => some (vis, stk)
  | (a, b) :: rest, vis, stk =>
    if a = node ∧ b ∉ vis then
      if b = endv then none
      else hpScan endv node rest (b :: vis) (b :: stk)
    else hpScan endv node rest vis stk

/-- The `while stack:` loop of `Poset.has_path` (src/hasse.py lines 82-89),
with fuel; `true` means the target was found. -/
def hpLoop (E : List (α × α)) (endv : α) : Nat → List α → List α → Bool
  | 0, _, _ => false
  | _ + 1, _, [] => false
  | fuel + 1, vis, node :: stk =>
    match hpScan endv node E vis stk with
    | none => true
    | some (vis', stk') => hpLoop E endv fuel vis' stk'

/-- `Poset.has_path` (src/hasse.py lines 77-90): `start == end` is trivially
reachable, otherwise run the iterative depth-first traversal from `start`.
The fuel `E.length + 1` bounds the number of loop iterations (each iteration
pops one node; at most `E.length` nodes are ever pushed beyond the initial
one, since every push freshly visits the target of some edge). -/
def has_path (E : List (α × α)) (start endv : α) : Bool :=
  if start = endv then true
  else hpLoop E endv (E.length + 1) [start] [start]

/-- `Poset.upper_bound` (src/hasse.py lines 67-70). -/
def upper_bound (elements : List α) (E : List (α × α)) (x y : α) : Option α :=
  let upper_bounds := elements.filter fun z => has_path E x z && has_path E y z
  let ub_candidates := upper_bounds.filter fun z =>
    upper_bounds.all fun u => has_path E u z
  if ub_candidates.length = 1 then ub_candidates.head? else none

/-- `Poset.lower_bound` (src/hasse.py lines 72-75). -/
def lower_bound (elements : List α) (E : List (α × α)) (x y : α) : Option α :=
  let lower_bounds := elements.filter fun z => has_path E z x && has_path E z y
  let lb_candidates := lower_bounds.filter fun z =>
    lower_bounds.all fun u => has_path E z u
  if lb_candidates.length = 1 then lb_candidates.head? else none

/-- `itertools.combinations(elements, 2)`: the ordered pairs `(l[i], l[j])`
with `i < j`, in lexicographic position order. -/
def combinations2 : List α → List (α × α)
  | [] => []
  | x :: xs => (xs.map fun y => (x, y)) ++ combinations2 xs

/-- Python truthiness of an optional value: `None` is falsy, a present
element is as truthy as the element type makes it. -/
def pyTruthy (truthy : α → Bool) : Option α → Bool
  | none => false
  | some v => truthy v

/-- `Poset.is_lattice` (src/hasse.py lines 61-65): `False` as soon as
`not self.upper_bound(x, y) or not self.lower_bound(x, y)` holds for a pair,
`True` otherwise.  `truthy` is the truthiness test of the element type. -/
def is_lattice (truthy : α → Bool) (elements : List α) (E : List (α × α)) : Bool :=
  (combinations2 elements).all fun p =>
    pyTruthy truthy (upper_bound elements E p.1 p.2) &&
      pyTruthy truthy (lower_bound elements E p.1 p.2)

/-- Pointwise update of the embedded `levels` dictionary
(`levels[b] = levels[a] + 1`). -/
def updateFn (f : α → Int) (a : α) (v : Int) : α → Int :=
  fun x => if x = a then v else f x

/-- One full pass of the `for a, b in self.hasse_relations` loop of
`Poset.assign_levels` (src/hasse.py lines 51-54), threading the `changed`
flag. -/
def relaxPass : List (α × α) → (α → Int) × Bool → (α → Int) × Bool
  | [], st => st
  | (a, b) :: rest, (lv, ch) =>
    if lv b ≤ lv a then relaxPass rest (updateFn lv b (lv a + 1), true)
    else relaxPass rest (lv, ch)

/-- The `while changed:` loop of `Poset.assign_levels` (src/hasse.py lines
48-54), with fuel counting the number of full passes still allowed; `none`
means the pass budget was exhausted before a pass ran without change. -/
def runPasses (E : List (α × α)) : Nat → (α → Int) → Option (α → Int)
  | 0, _ => none
  | fuel + 1, lv =>
    match relaxPass E (lv, false) with
    | (lv', true) => runPasses E fuel lv'
    | (lv', false) => some lv'

/-- The `for a, b in self.hasse_relations` loop of `Poset.dfs` (src/hasse.py
lines 18-24) for the current vertex `v`, parameterised by the recursive
visit (`visitF`, the embedding of the recursive call `self.dfs(b, ...)`).
State is `(found, visited, stack)` with the two dictionaries as lists of
true-keys. -/
def dfsScan (visitF : α → List α → List α → Bool × List α × List α) (v : α) :
    List (α × α) → List α → List α → Bool × List α × List α
  | [], vis, gr => (false, vis, gr)
  | (a, b) :: rest, vis, gr =>
    if a = v then
      if b ∈ vis then
        if b ∈ gr then (true, vis, gr)
        else dfsScan visitF v rest vis gr
      else
        match visitF b vis gr with
        | (true, vis', gr') => (true, vis', gr')
        | (false, vis', gr') => dfsScan visitF v rest vis' gr'
    else dfsScan visitF v rest vis gr

/-- `Poset.dfs` (src/hasse.py lines 16-26) with fuel bounding the recursion
depth: mark `v` visited and on the recursion stack, scan all edges leaving
`v`, finally take `v` off the recursion stack. -/
def dfsVisit (E : List (α × α)) : Nat → α → List α → List α → Bool × List α × List α
  | 0, _, vis, gr => (false, vis, gr)
  | fuel + 1, v, vis, gr =>
    match dfsScan (dfsVisit E fuel) v E (v :: vis) (v :: gr) with
    | (true, vis', gr') => (true, vis', gr')
    | (false, vis', gr') => (false, vis', gr'.erase v)

/-- The `for elem in self.elements` loop of `Poset.check_for_cycles`
(src/hasse.py lines 40-43). -/
def cfcLoop (E : List (α × α)) (fuel : Nat) :
    List α → List α → List α → Bool
  | [], _, _ => false
  | e :: rest, vis, gr =>
    if e ∈ vis then cfcLoop E fuel rest vis gr
    else
      match dfsVisit E fuel e vis gr with
      | (true, _, _) => true
      | (false, vis', gr') => cfcLoop E fuel rest vis' gr'

/-- `Poset.check_for_cycles` (src/hasse.py lines 37-44).  The fuel
`elements.length + 1` bounds the depth of the recursion of `dfs` (each
recursive call visits a previously unvisited element). -/
def check_for_cycles (elements : List α) (E : List (α × α)) : Bool :=
  cfcLoop E (elements.length + 1) elements [] []

/-- The data a successfully constructed `Poset` exposes to its callers: the
covering-edge list and the `levels` dictionary (reified in element order). -/
structure PosetData (α : Type) where
  hasse_relations : List (α × α)
  levels : List (α × Int)
deriving DecidableEq

/-- Result of running `Poset.__init__`.  `invalidOrder` is the
`ValueError("Error: cycle found. Relation must create a poset.")` raised
when `check_for_cycles` reports a cycle; in that case rank assignment never
runs and no `PosetData` exists.  `noFuel` is the fuel-exhaustion branch of
the embedded rank-relaxation loop; the lemmas below prove it unreachable
whenever every relation endpoint belongs to the element set. -/
inductive BuildResult (α : Type) where
  | ok : PosetData α → BuildResult α
  | invalidOrder : BuildResult α
  | noFuel : BuildResult α
deriving DecidableEq

/-- `Poset.__init__` (src/hasse.py lines 6-14): reduce the relations, fail
with the cycle error if the covering edges are cyclic, otherwise assign
levels by fixpoint relaxation (all levels start at 0). -/
def construct (elements : List α) (relations : List (α × α)) : BuildResult α :=
  let hasse := build_hasse_diagram relations
  if check_for_cycles elements hasse then .invalidOrder
  else
    match runPasses hasse (elements.length + 1) (fun _ => 0) with
    | some lv => .ok ⟨hasse, elements.map fun e => (e, lv e)⟩
    | none => .noFuel

/-- Number of elements not yet visited (size of the false-valued part of the
`visited` dictionary), the decreasing measure of the depth-first search. -/
def unvisitedCount (elements vis : List α) : Nat :=
  (elements.filter fun e => decide (e ∉ vis)).length

/-- Python truthiness of an `int`: zero is falsy. -/
def intTruthy : Int → Bool := fun n => decide (n ≠ 0)

/-- The iterated relaxation passes: levels after `k` full passes. -/
def iterPass (E : List (α × α)) (lv : α → Int) : Nat → α → Int
  | 0 => lv
  | k + 1 => (relaxPass E (iterPass E lv k, false)).1

/-! ### Basic lemmas about paths -/

theorem PathTo.single {E : List (α × α)} {a b : α} (h : (a, b) ∈ E) :
    PathTo E a b 1 :=
  PathTo.tail (PathTo.refl a) h

theorem PathTo.head {E : List (α × α)} {a b c : α} {n : Nat}
    (hab : (a, b) ∈ E) (hbc : PathTo E b c n) : PathTo E a c (n + 1) := by
  induction hbc with
  | refl => exact PathTo.single hab
  | tail _ he ih => exact PathTo.tail ih he

theorem PathTo.concat {E : List (α × α)} {a b c : α} {m n : Nat}
    (h₁ : PathTo E a b m) (h₂ : PathTo E b c n) : PathTo E a c (m + n) := by
  induction h₂ with
  | refl => exact h₁
  | tail _ he ih => exact PathTo.tail ih he

theorem PathTo.head_cases {E : List (α × α)} {a c : α} {n : Nat}
    (h : PathTo E a c (n + 1)) : ∃ b, (a, b) ∈ E ∧ PathTo E b c n := by
  induction n generalizing c with
  | zero =>
    cases h with
    | tail hp he =>
      cases hp with
      | refl => exact ⟨c, he, PathTo.refl c⟩
  | succ k ih =>
    cases h with
    | tail hp he =>
      obtain ⟨b, hab, hbc⟩ := ih hp
      exact ⟨b, hab, PathTo.tail hbc he⟩

theorem Reach.refl {E : List (α × α)} (a : α) : Reach E a a := ⟨0, PathTo.refl a⟩

theorem Reach.trans {E : List (α × α)} {a b c : α}
    (h₁ : Reach E a b) (h₂ : Reach E b c) : Reach E a c := by
  obtain ⟨m, hm⟩ := h₁
  obtain ⟨n, hn⟩ := h₂
  exact ⟨m + n, hm.concat hn⟩

theorem Reach.of_edge {E : List (α × α)} {a b : α} (h : (a, b) ∈ E) :
    Reach E a b := ⟨1, PathTo.single h⟩

/-- Along a path, a set of vertices that is closed under following edges and
contains the start also contains the end. -/
theorem pathTo_closed {E : List (α × α)} {vis : List α}
    (hcl : ∀ u ∈ vis, ∀ p ∈ E, p.1 = u → p.2 ∈ vis) {u w : α} {n : Nat}
    (hu : u ∈ vis) (hp : PathTo E u w n) : w ∈ vis := by
  induction hp with
  | refl => exact hu
  | tail _ he ih => exact hcl _ ih _ he rfl

/-- Along a path, the black set (visited and not on the recursion stack)
is closed under following edges once every black vertex has only black
successors. -/
theorem pathTo_black_closed {E : List (α × α)} {vis gr : List α}
    (h1 : ∀ u ∈ vis, u ∉ gr → ∀ p ∈ E, p.1 = u → p.2 ∈ vis ∧ p.2 ∉ gr)
    {u w : α} {n : Nat} (hu : u ∈ vis) (hug : u ∉ gr) (hp : PathTo E u w n) :
    w ∈ vis ∧ w ∉ gr := by
  induction hp with
  | refl => exact ⟨hu, hug⟩
  | tail _ he ih => exact h1 _ ih.1 ih.2 _ he rfl

/-! ### The relation reducer -/

theorem mem_hasse_to_remove {relations : List (α × α)} {r : α × α} :
    r ∈ hasse_to_remove relations ↔
      ∃ p ∈ relations, ∃ q ∈ relations,
        p.2 = q.1 ∧ (p.1, q.2) ∈ relations ∧ r = (p.1, q.2) := by
  unfold hasse_to_remove
  simp only [List.mem_flatMap, List.mem_filterMap]
  constructor
  · rintro ⟨p, hp, q, hq, hif⟩
    by_cases h : p.2 = q.1 ∧ (p.1, q.2) ∈ relations
    · rw [if_pos h] at hif
      exact ⟨p, hp, q, hq, h.1, h.2, (Option.some_injective _ hif).symm⟩
    · rw [if_neg h] at hif
      exact absurd hif (Option.noConfusion)
  · rintro ⟨p, hp, q, hq, hmid, hmem, hr⟩
    exact ⟨p, hp, q, hq, by rw [if_pos ⟨hmid, hmem⟩, hr]⟩

/-- Membership characterization of the covering-edge list: a pair survives
iff it is a raw pair and no raw two-hop chain `(r.1, m)`, `(m, r.2)`
witnesses it as a shortcut. -/
theorem mem_build_hasse {relations : List (α × α)} {r : α × α} :
    r ∈ build_hasse_diagram relations ↔
      r ∈ relations ∧ ¬ ∃ m, (r.1, m) ∈ relations ∧ (m, r.2) ∈ relations := by
  unfold build_hasse_diagram
  rw [List.mem_filter]
  constructor
  · rintro ⟨hmem, hdec⟩
    refine ⟨hmem, ?_⟩
    rintro ⟨m, h1, h2⟩
    have : r ∈ hasse_to_remove relations := by
      rw [mem_hasse_to_remove]
      exact ⟨(r.1, m), h1, (m, r.2), h2, rfl, by simpa using hmem, by simp⟩
    simp only [decide_eq_true_eq] at hdec
    exact hdec this
  · rintro ⟨hmem, hno⟩
    refine ⟨hmem, ?_⟩
    simp only [decide_eq_true_eq]
    intro hrem
    rw [mem_hasse_to_remove] at hrem
    obtain ⟨p, hp, q, hq, hmid, _, hr⟩ := hrem
    refine hno ⟨p.2, ?_, ?_⟩
    · have : r.1 = p.1 := by rw [hr]
      rw [this]
      exact (by simpa using hp : (p.1, p.2) ∈ relations)
    · have : r.2 = q.2 := by rw [hr]
      rw [this, hmid]
      exact (by simpa using hq : (q.1, q.2) ∈ relations)

/-- The implementation's covering-edge list equals the list the
specification's words describe (raw list filtered by the absence of an
explicit raw two-hop witness). -/
theorem build_hasse_eq_spec_reduced (relations : List (α × α)) :
    build_hasse_diagram relations = spec_reduced relations := by
  unfold build_hasse_diagram spec_reduced
  apply List.filter_congr
  intro r hr
  simp only [decide_eq_decide]
  rw [mem_hasse_to_remove]
  constructor
  · intro hnot
    rintro ⟨p, hp, hfst, hsnd⟩
    exact hnot ⟨(r.1, p.2), by simpa [← hfst] using hp, (p.2, r.2), hsnd, rfl,
      by simpa using hr, by simp⟩
  · intro hnot
    rintro ⟨p, hp, q, hq, hmid, _, hrpq⟩
    refine hnot ⟨p, hp, ?_, ?_⟩
    · rw [hrpq]
    · rw [hmid, hrpq]
      exact (by simpa using hq : (q.1, q.2) ∈ relations)

theorem build_hasse_sublist (relations : List (α × α)) :
    (build_hasse_diagram relations).Sublist relations :=
  List.filter_sublist relations

theorem count_build_hasse_removed {relations : List (α × α)} {r : α × α}
    (h : ∃ m, (r.1, m) ∈ relations ∧ (m, r.2) ∈ relations) :
    (build_hasse_diagram relations).count r = 0 := by
  rw [List.count_eq_zero]
  intro hmem
  rw [mem_build_hasse] at hmem
  exact hmem.2 h

theorem count_build_hasse_kept {relations : List (α × α)} {r : α × α}
    (h : ¬ ∃ m, (r.1, m) ∈ relations ∧ (m, r.2) ∈ relations) :
    (build_hasse_diagram relations).count r = relations.count r := by
  unfold build_hasse_diagram
  apply List.count_filter
  simp only [decide_eq_true_eq]
  rw [mem_hasse_to_remove]
  rintro ⟨p, hp, q, hq, hmid, _, hrpq⟩
  refine h ⟨p.2, ?_, ?_⟩
  · rw [hrpq]
    exact (by simpa using hp : (p.1, p.2) ∈ relations)
  · rw [hrpq, hmid]
    exact (by simpa using hq : (q.1, q.2) ∈ relations)

/-! ### Correctness of the iterative depth-first search `has_path` -/

theorem nodup_subset_length_le {l V : List α} (hd : l.Nodup)
    (hsub : ∀ u ∈ l, u ∈ V) : l.length ≤ V.length :=
  (List.subperm_of_subset hd hsub).length_le

theorem hpScan_none {endv node : α} :
    ∀ (rest : List (α × α)) (vis stk : List α),
      hpScan endv node rest vis stk = none → (node, endv) ∈ rest := by
  intro rest
  induction rest with
  | nil => intro vis stk h; exact absurd h (by simp [hpScan])
  | cons p rest ih =>
    intro vis stk h
    obtain ⟨a, b⟩ := p
    rw [hpScan] at h
    by_cases hc : a = node ∧ b ∉ vis
    · rw [if_pos hc] at h
      by_cases hb : b = endv
      · subst hb
        obtain ⟨rfl, -⟩ := hc
        exact List.mem_cons_self _ _
      · rw [if_neg hb] at h
        exact List.mem_cons_of_mem _ (ih _ _ h)
    · rw [if_neg hc] at h
      exact List.mem_cons_of_mem _ (ih _ _ h)

theorem hpScan_some {endv node : α} :
    ∀ (rest : List (α × α)) (vis stk vis' stk' : List α),
      hpScan endv node rest vis stk = some (vis', stk') →
      (∀ u ∈ vis, u ∈ vis') ∧
      (∀ u ∈ vis', u ∈ vis ∨ ((node, u) ∈ rest ∧ u ≠ endv)) ∧
      (∀ s ∈ stk', s ∈ stk ∨ ((node, s) ∈ rest ∧ s ∈ vis')) ∧
      (vis.Nodup → vis'.Nodup) ∧
      (∀ p ∈ rest, p.1 = node → p.2 ∈ vis') ∧
      (vis'.length + stk.length = vis.length + stk'.length) ∧
      (∀ s ∈ stk, s ∈ stk') ∧
      (∀ u ∈ vis', u ∈ vis ∨ u ∈ stk') ∧
      vis.length ≤ vis'.length := by
  intro rest
  induction rest with
  | nil =>
    intro vis stk vis' stk' h
    rw [hpScan] at h
    obtain ⟨h1, h2⟩ : vis = vis' ∧ stk = stk' := by
      have := Option.some_injective _ h
      exact ⟨congrArg Prod.fst this, congrArg Prod.snd this⟩
    subst h1; subst h2
    refine ⟨fun u hu => hu, fun u hu => Or.inl hu, fun s hs => Or.inl hs,
      id, by simp, by omega, fun s hs => hs, fun u hu => Or.inl hu, le_refl _⟩
  | cons p rest ih =>
    intro vis stk vis' stk' h
    obtain ⟨a, b⟩ := p
    rw [hpScan] at h
    by_cases hc : a = node ∧ b ∉ vis
    · rw [if_pos hc] at h
      by_cases hb : b = endv
      · rw [if_pos hb] at h; exact absurd h (by simp)
      · rw [if_neg hb] at h
        obtain ⟨s1, s2, s3, s4, s5, s6, s7, s8, s9⟩ := ih _ _ _ _ h
        obtain ⟨han, hbv⟩ := hc
        subst han
        refine ⟨?_, ?_, ?_, ?_, ?_, ?_, ?_, ?_, ?_⟩
        · exact fun u hu => s1 u (List.mem_cons_of_mem _ hu)
        · intro u hu
          rcases s2 u hu with hv | ⟨hmem, hne⟩
          · rcases List.mem_cons.mp hv with rfl | hv
            · exact Or.inr ⟨List.mem_cons_self _ _, hb⟩
            · exact Or.inl hv
          · exact Or.inr ⟨List.mem_cons_of_mem _ hmem, hne⟩
        · intro s hs
          rcases s3 s hs with hstk | ⟨hmem, hv⟩
          · rcases List.mem_cons.mp hstk with rfl | hstk
            · exact Or.inr ⟨List.mem_cons_self _ _, s1 _ (List.mem_cons_self _ _)⟩
            · exact Or.inl hstk
          · exact Or.inr ⟨List.mem_cons_of_mem _ hmem, hv⟩
        · intro hnd
          exact s4 (List.nodup_cons.mpr ⟨hbv, hnd⟩)
        · intro p hp hfst
          rcases List.mem_cons.mp hp with rfl | hp
          · exact s1 _ (List.mem_cons_self _ _)
          · exact s5 p hp hfst
        · simp only [List.length_cons] at s6 ⊢; omega
        · exact fun s hs => s7 s (List.mem_cons_of_mem _ hs)
        · intro u hu
          rcases s8 u hu with hv | hstk
          · rcases List.mem_cons.mp hv with rfl | hv
            · exact Or.inr (s7 _ (List.mem_cons_self _ _))
            · exact Or.inl hv
          · exact Or.inr hstk
        · simp only [List.length_cons] at s9; omega
    · rw [if_neg hc] at h
      obtain ⟨s1, s2, s3, s4, s5, s6, s7, s8, s9⟩ := ih _ _ _ _ h
      refine ⟨s1, ?_, ?_, s4, ?_, s6, s7, s8, s9⟩
      · intro u hu
        rcases s2 u hu with hv | ⟨hmem, hne⟩
        · exact Or.inl hv
        · exact Or.inr ⟨List.mem_cons_of_mem _ hmem, hne⟩
      · intro s hs
        rcases s3 s hs with hstk | ⟨hmem, hv⟩
        · exact Or.inl hstk
        · exact Or.inr ⟨List.mem_cons_of_mem _ hmem, hv⟩
      · intro p hp hfst
        rcases List.mem_cons.mp hp with rfl | hp
        · push_neg at hc
          exact s1 _ (hc hfst)
        · exact s5 p hp hfst

theorem hpLoop_sound {E : List (α × α)} {endv start : α} :
    ∀ (fuel : Nat) (vis stk : List α),
      (∀ s ∈ stk, Reach E start s) →
      hpLoop E endv fuel vis stk = true → Reach E start endv := by
  intro fuel
  induction fuel with
  | zero => intro vis stk _ h; exact absurd h (by simp [hpLoop])
  | succ fuel ih =>
    intro vis stk hstk h
    match stk with
    | [] => exact absurd h (by simp [hpLoop])
    | node :: tl =>
      rw [hpLoop] at h
      rcases hscan : hpScan endv node E vis tl with _ | ⟨vis', stk'⟩
      · have hedge : (node, endv) ∈ E := hpScan_none E vis tl hscan
        exact (hstk node (List.mem_cons_self _ _)).trans (Reach.of_edge hedge)
      · rw [hscan] at h
        obtain ⟨_, _, s3, _, _, _, _, _, _⟩ := hpScan_some E vis tl vis' stk' hscan
        refine ih vis' stk' ?_ h
        intro s hs
        rcases s3 s hs with hstl | ⟨hmem, _⟩
        · exact hstk s (List.mem_cons_of_mem _ hstl)
        · exact (hstk node (List.mem_cons_self _ _)).trans (Reach.of_edge hmem)

theorem hpLoop_complete {E : List (α × α)} {endv : α} {V : List α}
    (hV : ∀ p ∈ E, p.2 ∈ V) :
    ∀ (fuel : Nat) (vis stk : List α),
      (∀ s ∈ stk, s ∈ vis) →
      vis.Nodup →
      (∀ u ∈ vis, u ∈ V) →
      endv ∉ vis →
      (∀ u ∈ vis, u ∉ stk → ∀ p ∈ E, p.1 = u → p.2 ∈ vis) →
      stk.length + (V.length - vis.length) ≤ fuel →
      (∃ z ∈ vis, Reach E z endv) →
      hpLoop E endv fuel vis stk = true := by
  intro fuel
  induction fuel with
  | zero =>
    intro vis stk h1 h2 h3 h4 h5 h6 h7
    exfalso
    have hstk : stk = [] := by
      cases stk with
      | nil => rfl
      | cons s tl => simp only [List.length_cons] at h6; omega
    subst hstk
    obtain ⟨z, hz, n, hpath⟩ := h7
    exact h4 (pathTo_closed (fun u hu p hp hfst => h5 u hu (by simp) p hp hfst) hz hpath)
  | succ fuel ih =>
    intro vis stk h1 h2 h3 h4 h5 h6 h7
    match stk with
    | [] =>
      exfalso
      obtain ⟨z, hz, n, hpath⟩ := h7
      exact h4 (pathTo_closed (fun u hu p hp hfst => h5 u hu (by simp) p hp hfst) hz hpath)
    | node :: tl =>
      rw [hpLoop]
      rcases hscan : hpScan endv node E vis tl with _ | ⟨vis', stk'⟩
      · rfl
      · obtain ⟨s1, s2, s3, s4, s5, s6, s7, s8, s9⟩ := hpScan_some E vis tl vis' stk' hscan
        refine ih vis' stk' ?_ (s4 h2) ?_ ?_ ?_ ?_ ?_
        · intro s hs
          rcases s3 s hs with hstl | ⟨_, hv⟩
          · exact s1 _ (h1 s (List.mem_cons_of_mem _ hstl))
          · exact hv
        · intro u hu
          rcases s2 u hu with hv | ⟨hmem, _⟩
          · exact h3 u hv
          · exact hV _ hmem
        · intro hmem
          rcases s2 endv hmem with hv | ⟨_, hne⟩
          · exact h4 hv
          · exact hne rfl
        · intro u hu hustk p hp hfst
          rcases s8 u hu with hv | hstk'
          · by_cases hnode : u = node
            · subst hnode
              exact s5 p hp hfst
            · by_cases htl : u ∈ tl
              · exact absurd (s7 u htl) hustk
              · exact s1 _ (h5 u hv (by simp [hnode, htl]) p hp hfst)
          · exact absurd hstk' hustk
        · have hlen : vis'.length ≤ V.length := nodup_subset_length_le (s4 h2)
            (fun u hu => by
              rcases s2 u hu with hv | ⟨hmem, _⟩
              · exact h3 u hv
              · exact hV _ hmem)
          simp only [List.length_cons] at h6
          omega
        · obtain ⟨z, hz, hr⟩ := h7
          exact ⟨z, s1 z hz, hr⟩

/-- `Poset.has_path` decides reachability along the covering edges. -/
theorem has_path_iff_reach (E : List (α × α)) (start endv : α) :
    has_path E start endv = true ↔ Reach E start endv := by
  unfold has_path
  by_cases heq : start = endv
  · subst heq
    simp [Reach.refl]
  · rw [if_neg heq]
    constructor
    · intro h
      exact hpLoop_sound (E.length + 1) [start] [start]
        (fun s hs => by rcases List.mem_singleton.mp hs with rfl; exact Reach.refl s) h
    · intro hr
      refine @hpLoop_complete α _ E endv (start :: E.map Prod.snd)
        (fun p hp => List.mem_cons_of_mem _ (List.mem_map.mpr ⟨p, hp, rfl⟩))
        (E.length + 1) [start] [start] (fun s hs => hs) (List.nodup_singleton _)
        (fun u hu => by rcases List.mem_singleton.mp hu with rfl; exact List.mem_cons_self _ _)
        (by simpa using fun h => heq h.symm) ?_ ?_ ⟨start, List.mem_singleton.mpr rfl, hr⟩
      · intro u hu hustk
        exact absurd hu hustk
      · simp only [List.length_cons, List.length_map, List.length_nil]
        omega

/-! ### The bound engine -/

theorem ite_length_head_eq_some {l : List α} {z : α} :
    (if l.length = 1 then l.head? else none) = some z ↔ l = [z] := by
  match l with
  | [] => simp
  | [a] => simp
  | a :: b :: t => simp

theorem filter_eq_singleton_iff {l : List α} (hnd : l.Nodup) {p : α → Bool} {z : α} :
    l.filter p = [z] ↔
      z ∈ l ∧ p z = true ∧ ∀ y ∈ l, p y = true → y = z := by
  induction l with
  | nil => simp
  | cons a t ih =>
    obtain ⟨hat, hnt⟩ := List.nodup_cons.mp hnd
    by_cases hpa : p a = true
    · rw [List.filter_cons_of_pos hpa]
      constructor
      · intro h
        rw [List.cons_eq_cons] at h
        obtain ⟨rfl, hnil⟩ := h
        refine ⟨List.mem_cons_self _ _, hpa, ?_⟩
        intro y hy hpy
        rcases List.mem_cons.mp hy with rfl | hyt
        · rfl
        · exact absurd hpy (by simpa using (List.filter_eq_nil_iff.mp hnil) y hyt)
      · rintro ⟨hz, hpz, huniq⟩
        have haz : a = z := huniq a (List.mem_cons_self _ _) hpa
        subst haz
        rw [List.cons_eq_cons]
        refine ⟨rfl, ?_⟩
        rw [List.filter_eq_nil_iff]
        intro y hyt hpy
        exact hat (by rw [huniq y (List.mem_cons_of_mem _ hyt) (by simpa using hpy)] at hyt; exact hyt)
    · rw [List.filter_cons_of_neg (by simpa using hpa)]
      rw [ih hnt]
      constructor
      · rintro ⟨hzt, hpz, huniq⟩
        refine ⟨List.mem_cons_of_mem _ hzt, hpz, ?_⟩
        intro y hy hpy
        rcases List.mem_cons.mp hy with rfl | hyt
        · exact absurd hpy hpa
        · exact huniq y hyt hpy
      · rintro ⟨hz, hpz, huniq⟩
        rcases List.mem_cons.mp hz with rfl | hzt
        · exact absurd hpz hpa
        · exact ⟨hzt, hpz, fun y hyt hpy => huniq y (List.mem_cons_of_mem _ hyt) hpy⟩

/-- Characterization of the common pattern of `upper_bound`/`lower_bound`:
filter the elements by a candidacy test `p`, keep those related to all
candidates by `q`, and return the result exactly when it is a singleton. -/
theorem bound_select_spec {elements : List α} (hnd : elements.Nodup)
    (p : α → Bool) (q : α → α → Bool) {z : α} :
    (let bs := elements.filter p
     let cands := bs.filter fun w => bs.all fun u => q u w
     if cands.length = 1 then cands.head? else none) = some z ↔
      (z ∈ elements ∧ p z = true ∧ (∀ u ∈ elements, p u = true → q u z = true) ∧
        ∀ w ∈ elements, p w = true → (∀ u ∈ elements, p u = true → q u w = true) → w = z) := by
  simp only
  rw [ite_length_head_eq_some, List.filter_filter,
    filter_eq_singleton_iff hnd]
  have hmem : ∀ w : α, ((elements.filter p).all fun u => q u w) = true ↔
      ∀ u ∈ elements, p u = true → q u w = true := by
    intro w
    rw [List.all_eq_true]
    constructor
    · intro h u hu hpu
      exact h u (List.mem_filter.mpr ⟨hu, hpu⟩)
    · intro h u hu
      obtain ⟨hmem, hp⟩ := List.mem_filter.mp hu
      exact h u hmem hp
  constructor
  · rintro ⟨hz, hpq, huniq⟩
    rw [Bool.and_eq_true] at hpq
    refine ⟨hz, hpq.2, (hmem z).mp hpq.1, ?_⟩
    intro w hw hpw hqw
    exact huniq w hw (by rw [Bool.and_eq_true]; exact ⟨(hmem w).mpr hqw, hpw⟩)
  · rintro ⟨hz, hpz, hq, huniq⟩
    refine ⟨hz, by rw [Bool.and_eq_true]; exact ⟨(hmem z).mpr hq, hpz⟩, ?_⟩
    intro y hy hpy
    rw [Bool.and_eq_true] at hpy
    exact huniq y hy hpy.2 ((hmem y).mp hpy.1)

theorem upper_bound_eq_some_iff {elements : List α} (hnd : elements.Nodup)
    (E : List (α × α)) (x y : α) {z : α} :
    upper_bound elements E x y = some z ↔
      (z ∈ elements ∧ (has_path E x z && has_path E y z) = true ∧
        (∀ u ∈ elements, (has_path E x u && has_path E y u) = true →
          has_path E u z = true) ∧
        ∀ w ∈ elements, (has_path E x w && has_path E y w) = true →
          (∀ u ∈ elements, (has_path E x u && has_path E y u) = true →
            has_path E u w = true) → w = z) :=
  bound_select_spec hnd (fun w => has_path E x w && has_path E y w)
    (fun u w => has_path E u w)

theorem lower_bound_eq_some_iff {elements : List α} (hnd : elements.Nodup)
    (E : List (α × α)) (x y : α) {z : α} :
    lower_bound elements E x y = some z ↔
      (z ∈ elements ∧ (has_path E z x && has_path E z y) = true ∧
        (∀ u ∈ elements, (has_path E u x && has_path E u y) = true →
          has_path E z u = true) ∧
        ∀ w ∈ elements, (has_path E w x && has_path E w y) = true →
          (∀ u ∈ elements, (has_path E u x && has_path E u y) = true →
            has_path E w u = true) → w = z) :=
  bound_select_spec hnd (fun w => has_path E w x && has_path E w y)
    (fun u w => has_path E w u)

theorem upper_bound_symm (elements : List α) (E : List (α × α)) (x y : α) :
    upper_bound elements E x y = upper_bound elements E y x := by
  unfold upper_bound
  have h : elements.filter (fun z => has_path E x z && has_path E y z) =
      elements.filter (fun z => has_path E y z && has_path E x z) := by
    apply List.filter_congr
    intro z _
    exact Bool.and_comm _ _
  simp only [h]

theorem lower_bound_symm (elements : List α) (E : List (α × α)) (x y : α) :
    lower_bound elements E x y = lower_bound elements E y x := by
  unfold lower_bound
  have h : elements.filter (fun z => has_path E z x && has_path E z y) =
      elements.filter (fun z => has_path E z y && has_path E z x) := by
    apply List.filter_congr
    intro z _
    exact Bool.and_comm _ _
  simp only [h]

/-! ### `combinations2` and `is_lattice` -/

theorem mem_combinations2 {l : List α} {p : α × α} (h : p ∈ combinations2 l) :
    p.1 ∈ l ∧ p.2 ∈ l := by
  induction l with
  | nil => simp [combinations2] at h
  | cons a t ih =>
    rw [combinations2, List.mem_append] at h
    rcases h with h | h
    · obtain ⟨y, hy, rfl⟩ := List.mem_map.mp h
      exact ⟨List.mem_cons_self _ _, List.mem_cons_of_mem _ hy⟩
    · obtain ⟨h1, h2⟩ := ih h
      exact ⟨List.mem_cons_of_mem _ h1, List.mem_cons_of_mem _ h2⟩

theorem ne_of_mem_combinations2 {l : List α} (hnd : l.Nodup) {p : α × α}
    (h : p ∈ combinations2 l) : p.1 ≠ p.2 := by
  induction l with
  | nil => simp [combinations2] at h
  | cons a t ih =>
    obtain ⟨hat, hnt⟩ := List.nodup_cons.mp hnd
    rw [combinations2, List.mem_append] at h
    rcases h with h | h
    · obtain ⟨y, hy, rfl⟩ := List.mem_map.mp h
      intro hcontra
      simp only at hcontra
      exact hat (by rw [hcontra]; exact hy)
    · exact ih hnt h

theorem combinations2_covers {l : List α} {x y : α}
    (hx : x ∈ l) (hy : y ∈ l) (hxy : x ≠ y) :
    (x, y) ∈ combinations2 l ∨ (y, x) ∈ combinations2 l := by
  induction l with
  | nil => simp at hx
  | cons a t ih =>
    rw [combinations2]
    rcases List.mem_cons.mp hx with rfl | hxt
    · have hyt : y ∈ t := by
        rcases List.mem_cons.mp hy with rfl | hyt
        · exact absurd rfl hxy
        · exact hyt
      exact Or.inl (List.mem_append.mpr (Or.inl (List.mem_map.mpr ⟨y, hyt, rfl⟩)))
    · rcases List.mem_cons.mp hy with rfl | hyt
      · exact Or.inr (List.mem_append.mpr (Or.inl (List.mem_map.mpr ⟨x, hxt, rfl⟩)))
      · rcases ih hxt hyt with h | h
        · exact Or.inl (List.mem_append.mpr (Or.inr h))
        · exact Or.inr (List.mem_append.mpr (Or.inr h))

/-- What `is_lattice` actually decides: every unordered pair of distinct
elements has a truthy upper-bound result and a truthy lower-bound result
(Python evaluates the returned bound, not merely its non-`None`-ness). -/
theorem is_lattice_iff (truthy : α → Bool) {elements : List α}
    (hnd : elements.Nodup) (E : List (α × α)) :
    is_lattice truthy elements E = true ↔
      ∀ x ∈ elements, ∀ y ∈ elements, x ≠ y →
        (∃ u, upper_bound elements E x y = some u ∧ truthy u = true) ∧
        (∃ v, lower_bound elements E x y = some v ∧ truthy v = true) := by
  unfold is_lattice
  rw [List.all_eq_true]
  have hpy : ∀ (o : Option α), pyTruthy truthy o = true ↔
      ∃ u, o = some u ∧ truthy u = true := by
    intro o
    cases o with
    | none => simp [pyTruthy]
    | some v => simp [pyTruthy]
  constructor
  · intro h x hx y hy hxy
    rcases combinations2_covers hx hy hxy with hc | hc
    · have := h (x, y) hc
      rw [Bool.and_eq_true, hpy, hpy] at this
      exact this
    · have := h (y, x) hc
      rw [Bool.and_eq_true, hpy, hpy] at this
      rw [upper_bound_symm elements E x y, lower_bound_symm elements E x y]
      exact this
  · intro h p hp
    obtain ⟨h1, h2⟩ := mem_combinations2 hp
    have hne := ne_of_mem_combinations2 hnd hp
    rw [Bool.and_eq_true, hpy, hpy]
    exact h p.1 h1 p.2 h2 hne

/-! ### The rank assigner: one pass -/

theorem relaxPass_mono :
    ∀ (rest : List (α × α)) (lv : α → Int) (ch : Bool) (x : α),
      lv x ≤ (relaxPass rest (lv, ch)).1 x := by
  intro rest
  induction rest with
  | nil => intro lv ch x; exact le_refl _
  | cons p rest ih =>
    intro lv ch x
    obtain ⟨a, b⟩ := p
    rw [relaxPass]
    by_cases h : lv b ≤ lv a
    · rw [if_pos h]
      refine le_trans ?_ (ih _ _ x)
      unfold updateFn
      by_cases hx : x = b
      · subst hx
        rw [if_pos rfl]
        omega
      · rw [if_neg hx]
    · rw [if_neg h]
      exact ih _ _ x

theorem relaxPass_true_sticky :
    ∀ (rest : List (α × α)) (lv : α → Int), (relaxPass rest (lv, true)).2 = true := by
  intro rest
  induction rest with
  | nil => intro lv; rfl
  | cons p rest ih =>
    intro lv
    obtain ⟨a, b⟩ := p
    rw [relaxPass]
    by_cases h : lv b ≤ lv a
    · rw [if_pos h]; exact ih _
    · rw [if_neg h]; exact ih _

theorem relaxPass_false :
    ∀ (rest : List (α × α)) (lv : α → Int) (ch : Bool),
      (relaxPass rest (lv, ch)).2 = false →
      ch = false ∧ (relaxPass rest (lv, ch)).1 = lv ∧ ∀ p ∈ rest, lv p.1 < lv p.2 := by
  intro rest
  induction rest with
  | nil =>
    intro lv ch h
    exact ⟨h, rfl, by simp⟩
  | cons p rest ih =>
    intro lv ch h
    obtain ⟨a, b⟩ := p
    rw [relaxPass] at h ⊢
    by_cases hba : lv b ≤ lv a
    · rw [if_pos hba] at h
      rw [relaxPass_true_sticky] at h
      exact absurd h (by simp)
    · rw [if_neg hba] at h ⊢
      obtain ⟨hch, hlv, hstrict⟩ := ih _ _ h
      refine ⟨hch, hlv, ?_⟩
      intro q hq
      rcases List.mem_cons.mp hq with rfl | hq
      · simp only
        omega
      · exact hstrict q hq

theorem relaxPass_stable :
    ∀ (rest : List (α × α)) (lv : α → Int) (ch : Bool),
      (∀ p ∈ rest, lv p.1 < lv p.2) → relaxPass rest (lv, ch) = (lv, ch) := by
  intro rest
  induction rest with
  | nil => intro lv ch _; rfl
  | cons p rest ih =>
    intro lv ch hstrict
    obtain ⟨a, b⟩ := p
    rw [relaxPass]
    have hab : lv a < lv b := hstrict (a, b) (List.mem_cons_self _ _)
    rw [if_neg (by omega)]
    exact ih _ _ fun q hq => hstrict q (List.mem_cons_of_mem _ hq)

theorem relaxPass_progress :
    ∀ (rest : List (α × α)) (lv : α → Int) (ch : Bool) {a b : α},
      (a, b) ∈ rest → lv a + 1 ≤ (relaxPass rest (lv, ch)).1 b := by
  intro rest
  induction rest with
  | nil => intro lv ch a b h; simp at h
  | cons p rest ih =>
    intro lv ch a b hmem
    obtain ⟨c, d⟩ := p
    rw [relaxPass]
    rcases List.mem_cons.mp hmem with heq | hmem
    · have h1 : a = c := congrArg Prod.fst heq
      have h2 : b = d := congrArg Prod.snd heq
      subst h1; subst h2
      by_cases h : lv b ≤ lv a
      · rw [if_pos h]
        refine le_trans ?_ (relaxPass_mono rest _ _ b)
        unfold updateFn
        rw [if_pos rfl]
      · rw [if_neg h]
        refine le_trans ?_ (relaxPass_mono rest _ _ b)
        omega
    · by_cases h : lv d ≤ lv c
      · rw [if_pos h]
        refine le_trans ?_ (ih _ _ hmem)
        unfold updateFn
        by_cases hx : a = d
        · subst hx
          rw [if_pos rfl]
          omega
        · rw [if_neg hx]
      · rw [if_neg h]
        exact ih _ _ hmem

theorem relaxPass_nonneg :
    ∀ (rest : List (α × α)) (lv : α → Int) (ch : Bool),
      (∀ x, 0 ≤ lv x) → ∀ x, 0 ≤ (relaxPass rest (lv, ch)).1 x := by
  intro rest
  induction rest with
  | nil => intro lv ch h x; exact h x
  | cons p rest ih =>
    intro lv ch h x
    obtain ⟨a, b⟩ := p
    rw [relaxPass]
    by_cases hba : lv b ≤ lv a
    · rw [if_pos hba]
      refine ih _ _ ?_ x
      intro u
      unfold updateFn
      by_cases hu : u = b
      · rw [if_pos hu]
        have := h a
        omega
      · rw [if_neg hu]
        exact h u
    · rw [if_neg hba]
      exact ih _ _ h x

theorem relaxPass_path_witness {E : List (α × α)} :
    ∀ (rest : List (α × α)) (lv : α → Int) (ch : Bool),
      (∀ p ∈ rest, p ∈ E) →
      (∀ x, ∃ s n, PathTo E s x n ∧ lv x = (n : Int)) →
      ∀ x, ∃ s n, PathTo E s x n ∧ (relaxPass rest (lv, ch)).1 x = (n : Int) := by
  intro rest
  induction rest with
  | nil => intro lv ch _ hw x; exact hw x
  | cons p rest ih =>
    intro lv ch hrest hw x
    obtain ⟨a, b⟩ := p
    rw [relaxPass]
    have hrest' : ∀ q ∈ rest, q ∈ E := fun q hq => hrest q (List.mem_cons_of_mem _ hq)
    by_cases hba : lv b ≤ lv a
    · rw [if_pos hba]
      refine ih _ _ hrest' ?_ x
      intro u
      unfold updateFn
      by_cases hu : u = b
      · subst hu
        rw [if_pos rfl]
        obtain ⟨s, n, hpath, hval⟩ := hw a
        refine ⟨s, n + 1, PathTo.tail hpath (hrest (a, u) (List.mem_cons_self _ _)), ?_⟩
        rw [hval]
        push_cast
        ring
      · rw [if_neg hu]
        exact hw u
    · rw [if_neg hba]
      exact ih _ _ hrest' hw x

/-! ### The rank assigner: the pass loop -/

theorem runPasses_stable {E : List (α × α)} :
    ∀ (fuel : Nat) (lv lv' : α → Int),
      runPasses E fuel lv = some lv' → (relaxPass E (lv', false)).2 = false := by
  intro fuel
  induction fuel with
  | zero => intro lv lv' h; exact absurd h (by simp [runPasses])
  | succ fuel ih =>
    intro lv lv' h
    rw [runPasses] at h
    rcases hres : relaxPass E (lv, false) with ⟨lv₁, ch⟩
    rw [hres] at h
    cases ch with
    | true => exact ih _ _ h
    | false =>
      have hlv : lv₁ = lv' := by simpa using h
      obtain ⟨-, hfix, -⟩ := relaxPass_false E lv false (by rw [hres])
      have : lv₁ = lv := by rw [← hfix, hres]
      subst hlv
      rw [this, hres]

theorem runPasses_strict {E : List (α × α)} {fuel : Nat} {lv lv' : α → Int}
    (h : runPasses E fuel lv = some lv') : ∀ p ∈ E, lv' p.1 < lv' p.2 :=
  (relaxPass_false E lv' false (runPasses_stable fuel lv lv' h)).2.2

theorem runPasses_nonneg {E : List (α × α)} :
    ∀ (fuel : Nat) (lv lv' : α → Int),
      (∀ x, 0 ≤ lv x) → runPasses E fuel lv = some lv' → ∀ x, 0 ≤ lv' x := by
  intro fuel
  induction fuel with
  | zero => intro lv lv' _ h; exact absurd h (by simp [runPasses])
  | succ fuel ih =>
    intro lv lv' hpos h
    rw [runPasses] at h
    rcases hres : relaxPass E (lv, false) with ⟨lv₁, ch⟩
    rw [hres] at h
    have hpos₁ : ∀ x, 0 ≤ lv₁ x := by
      intro x
      have := relaxPass_nonneg E lv false hpos x
      rw [hres] at this
      exact this
    cases ch with
    | true => exact ih _ _ hpos₁ h
    | false =>
      have : lv₁ = lv' := by simpa using h
      subst this
      exact hpos₁

theorem runPasses_fuel_mono {E : List (α × α)} :
    ∀ (fuel : Nat) (lv lv' : α → Int),
      runPasses E fuel lv = some lv' →
      ∀ g, fuel ≤ g → runPasses E g lv = some lv' := by
  intro fuel
  induction fuel with
  | zero => intro lv lv' h; exact absurd h (by simp [runPasses])
  | succ fuel ih =>
    intro lv lv' h g hg
    obtain ⟨g', rfl⟩ : ∃ g', g = g' + 1 := ⟨g - 1, by omega⟩
    rw [runPasses] at h ⊢
    rcases hres : relaxPass E (lv, false) with ⟨lv₁, ch⟩
    rw [hres] at h
    cases ch with
    | true => exact ih _ _ h g' (by omega)
    | false => exact h

theorem iterPass_shift {E : List (α × α)} (lv : α → Int) :
    ∀ k, iterPass E ((relaxPass E (lv, false)).1) k = iterPass E lv (k + 1) := by
  intro k
  induction k with
  | zero => rfl
  | succ k ih =>
    conv_lhs => rw [iterPass]
    rw [ih]
    conv_rhs => rw [iterPass]

theorem iterPass_nonneg {E : List (α × α)} {lv : α → Int} (hpos : ∀ x, 0 ≤ lv x) :
    ∀ k x, 0 ≤ iterPass E lv k x := by
  intro k
  induction k with
  | zero => exact hpos
  | succ k ih =>
    intro x
    rw [iterPass]
    exact relaxPass_nonneg E _ false ih x

theorem iterPass_progress {E : List (α × α)} {lv : α → Int} (hpos : ∀ x, 0 ≤ lv x)
    {s x : α} {len : Nat} (hpath : PathTo E s x len) :
    ∀ k, len ≤ k → (len : Int) ≤ iterPass E lv k x := by
  induction hpath with
  | refl =>
    intro k _
    simpa using iterPass_nonneg hpos k _
  | tail hp he ih =>
    intro k hk
    obtain ⟨k', rfl⟩ : ∃ k', k = k' + 1 := ⟨k - 1, by omega⟩
    have hw := ih k' (by omega)
    rw [iterPass]
    have := relaxPass_progress E (iterPass E lv k') false he
    push_cast
    omega

theorem iterPass_path_witness {E : List (α × α)} :
    ∀ k x, ∃ s n, PathTo E s x n ∧ iterPass E (fun _ => (0 : Int)) k x = (n : Int) := by
  intro k
  induction k with
  | zero => intro x; exact ⟨x, 0, PathTo.refl x, rfl⟩
  | succ k ih =>
    intro x
    rw [iterPass]
    exact relaxPass_path_witness E (iterPass E (fun _ => 0) k) false (fun p hp => hp) ih x

/-! ### Acyclic edge lists bound path lengths -/

theorem pathTo_chain {E : List (α × α)} {a b : α} {n : Nat}
    (h : PathTo E a b n) :
    ∃ l : List α, List.Chain' (fun x y => (x, y) ∈ E) l ∧
      l.length = n + 1 ∧ l.head? = some a ∧ l.getLast? = some b := by
  induction h with
  | refl => exact ⟨[a], List.chain'_singleton a, by simp, by simp, by simp⟩
  | @tail b' c' n' hp he ih =>
    obtain ⟨l, hchain, hlen, hhead, hlast⟩ := ih
    refine ⟨l ++ [c'], ?_, by simp [hlen], ?_, by simp⟩
    · rw [List.chain'_append]
      refine ⟨hchain, List.chain'_singleton _, ?_⟩
      intro x hx y hy
      simp only [List.head?_cons, Option.mem_def, Option.some_inj] at hy
      rw [hlast] at hx
      simp only [Option.mem_def, Option.some_inj] at hx
      subst hx; subst hy
      exact he
    · cases l with
      | nil => simp at hlen
      | cons w t => simpa using hhead

theorem chain_pathTo {E : List (α × α)} :
    ∀ (l : List α) (a b : α), List.Chain' (fun x y => (x, y) ∈ E) l →
      l.head? = some a → l.getLast? = some b → PathTo E a b (l.length - 1) := by
  intro l
  induction l with
  | nil => intro a b _ h; simp at h
  | cons x t ih =>
    intro a b hchain hhead hlast
    obtain rfl : x = a := by simpa using hhead
    cases t with
    | nil =>
      obtain rfl : x = b := by simpa using hlast
      exact PathTo.refl x
    | cons y t' =>
      obtain ⟨hedge, hchain'⟩ := List.chain'_cons.mp hchain
      have hp : PathTo E y b ((y :: t').length - 1) :=
        ih y b hchain' (by simp) (by rw [← hlast, List.getLast?_cons_cons])
      simp only [List.length_cons, Nat.add_sub_cancel] at hp ⊢
      exact PathTo.head hedge hp

theorem chain_nodup_of_acyclic {E : List (α × α)} (hacyc : ¬ HasCycle E) :
    ∀ l : List α, List.Chain' (fun x y => (x, y) ∈ E) l → l.Nodup := by
  intro l
  induction l with
  | nil => intro _; exact List.nodup_nil
  | cons a t ih =>
    intro hchain
    have hchain' : List.Chain' (fun x y => (x, y) ∈ E) t := by
      cases t with
      | nil => exact List.chain'_nil
      | cons y t' => exact (List.chain'_cons.mp hchain).2
    rw [List.nodup_cons]
    refine ⟨?_, ih hchain'⟩
    intro hat
    obtain ⟨t₁, t₂, rfl⟩ := List.mem_iff_append.mp hat
    have hsplit : a :: (t₁ ++ a :: t₂) = ((a :: t₁) ++ [a]) ++ t₂ := by simp
    have hpre : ((a :: t₁) ++ [a]).Chain' (fun x y => (x, y) ∈ E) := by
      refine List.Chain'.prefix ?_ ⟨t₂, rfl⟩
      rw [← hsplit]
      exact hchain
    have hpath : PathTo E a a (((a :: t₁) ++ [a]).length - 1) :=
      chain_pathTo _ a a hpre (by simp) (by rw [List.getLast?_concat])
    simp only [List.length_append, List.length_cons, List.length_singleton] at hpath
    exact hacyc ⟨a, t₁.length, by simpa [Nat.add_sub_cancel] using hpath⟩

theorem chain_mem_edges {E : List (α × α)} :
    ∀ l : List α, List.Chain' (fun x y => (x, y) ∈ E) l → 2 ≤ l.length →
      ∀ u ∈ l, ∃ p ∈ E, p.1 = u ∨ p.2 = u := by
  intro l
  induction l with
  | nil => intro _ h; simp at h
  | cons a t ih =>
    intro hchain hlen u hu
    cases t with
    | nil => simp at hlen
    | cons b t' =>
      obtain ⟨hedge, hchain'⟩ := List.chain'_cons.mp hchain
      rcases List.mem_cons.mp hu with rfl | hu
      · exact ⟨(u, b), hedge, Or.inl rfl⟩
      · cases t' with
        | nil =>
          obtain rfl : u = b := by simpa using hu
          exact ⟨(a, u), hedge, Or.inr rfl⟩
        | cons c t'' =>
          exact ih hchain' (by simp) u hu

/-- In an acyclic edge list whose endpooints lie in the element list, every
path is shorter than `max 1 elements.length`. -/
theorem path_length_lt {E : List (α × α)} {elements : List α}
    (hE : ∀ p ∈ E, p.1 ∈ elements ∧ p.2 ∈ elements)
    (hacyc : ¬ HasCycle E) {s x : α} {len : Nat} (hpath : PathTo E s x len) :
    len < max 1 elements.length := by
  cases len with
  | zero => exact lt_of_lt_of_le Nat.one_pos (le_max_left _ _)
  | succ m =>
    obtain ⟨l, hchain, hlen, -, -⟩ := pathTo_chain hpath
    have hnodup : l.Nodup := chain_nodup_of_acyclic hacyc l hchain
    have hsub : ∀ u ∈ l, u ∈ elements := by
      intro u hu
      obtain ⟨p, hp, hcase⟩ := chain_mem_edges l hchain (by omega) u hu
      rcases hcase with h | h
      · exact h ▸ (hE p hp).1
      · exact h ▸ (hE p hp).2
    have := nodup_subset_length_le hnodup hsub
    have : m + 2 ≤ elements.length := by omega
    omega

/-- Under acyclicity the relaxation loop reaches a pass with no change
within `max 1 elements.length` passes. -/
theorem runPasses_terminates {E : List (α × α)} {elements : List α}
    (hE : ∀ p ∈ E, p.1 ∈ elements ∧ p.2 ∈ elements)
    (hacyc : ¬ HasCycle E) :
    ∃ lv', runPasses E (max 1 elements.length) (fun _ => 0) = some lv' := by
  set m := max 1 elements.length with hm
  have hstable : ∀ p ∈ E, iterPass E (fun _ => 0) (m - 1) p.1 <
      iterPass E (fun _ => 0) (m - 1) p.2 := by
    intro p hp
    obtain ⟨s, na, hpath, hval⟩ := @iterPass_path_witness α _ E (m - 1) p.1
    have hext : PathTo E s p.2 (na + 1) := by
      refine PathTo.tail hpath ?_
      obtain ⟨p1, p2⟩ := p
      exact hp
    have hbound : na + 1 < m := path_length_lt hE hacyc hext
    have hprog := @iterPass_progress α _ E (fun _ => 0) (fun _ => le_refl 0)
      _ _ _ hext (m - 1) (by omega)
    rw [hval]
    push_cast at hprog ⊢
    omega
  have hkey : ∀ (k : Nat) (lv : α → Int),
      (relaxPass E (iterPass E lv k, false)).2 = false →
      ∃ lv', runPasses E (k + 1) lv = some lv' := by
    intro k
    induction k with
    | zero =>
      intro lv hstab
      rw [runPasses]
      rcases hres : relaxPass E (lv, false) with ⟨lv₁, ch⟩
      cases ch with
      | true =>
        rw [iterPass] at hstab
        rw [hres] at hstab
        exact absurd hstab (by simp)
      | false => exact ⟨lv₁, rfl⟩
    | succ k ih =>
      intro lv hstab
      rw [runPasses]
      rcases hres : relaxPass E (lv, false) with ⟨lv₁, ch⟩
      cases ch with
      | true =>
        have hshift : iterPass E lv₁ k = iterPass E lv (k + 1) := by
          have : lv₁ = (relaxPass E (lv, false)).1 := by rw [hres]
          rw [this, iterPass_shift]
        exact ih lv₁ (by rw [hshift]; exact hstab)
      | false => exact ⟨lv₁, rfl⟩
  have hm1 : m - 1 + 1 = m := by
    have : 1 ≤ m := le_max_left _ _
    omega
  have hstab : (relaxPass E (iterPass E (fun _ => (0 : Int)) (m - 1), false)).2 = false := by
    have := relaxPass_stable E (iterPass E (fun _ => 0) (m - 1)) false hstable
    rw [this]
  obtain ⟨lv', hlv'⟩ := hkey (m - 1) (fun _ => 0) hstab
  rw [hm1] at hlv'
  exact ⟨lv', hlv'⟩

/-! ### Counting unvisited elements -/

theorem filter_length_mono {l : List α} {p q : α → Bool}
    (h : ∀ x ∈ l, q x = true → p x = true) :
    (l.filter q).length ≤ (l.filter p).length := by
  induction l with
  | nil => simp
  | cons a t ih =>
    have ht : ∀ x ∈ t, q x = true → p x = true :=
      fun x hx => h x (List.mem_cons_of_mem _ hx)
    by_cases hq : q a = true
    · rw [List.filter_cons_of_pos hq, List.filter_cons_of_pos (h a (List.mem_cons_self _ _) hq)]
      simpa using ih ht
    · rw [List.filter_cons_of_neg (by simpa using hq)]
      by_cases hp : p a = true
      · rw [List.filter_cons_of_pos hp]
        exact le_trans (ih ht) (by simp)
      · rw [List.filter_cons_of_neg (by simpa using hp)]
        exact ih ht

theorem unvisitedCount_le (elements vis : List α) :
    unvisitedCount elements vis ≤ elements.length :=
  List.length_filter_le _ _

theorem unvisitedCount_antitone {elements vis vis' : List α}
    (h : ∀ u ∈ vis, u ∈ vis') :
    unvisitedCount elements vis' ≤ unvisitedCount elements vis := by
  apply filter_length_mono
  intro x _ hq
  simp only [decide_eq_true_eq] at hq ⊢
  intro hx
  exact hq (h x hx)

theorem unvisitedCount_strict {elements vis : List α} {v : α}
    (hv : v ∈ elements) (hnv : v ∉ vis) :
    unvisitedCount elements (v :: vis) < unvisitedCount elements vis := by
  induction elements with
  | nil => simp at hv
  | cons e t ih =>
    unfold unvisitedCount at ih ⊢
    by_cases hev : e = v
    · subst hev
      rw [List.filter_cons_of_neg (by simp), List.filter_cons_of_pos (by simpa using hnv)]
      have hmono : ((t.filter fun x => decide (x ∉ e :: vis))).length ≤
          ((t.filter fun x => decide (x ∉ vis))).length := by
        apply filter_length_mono
        intro x _ hq
        simp only [decide_eq_true_eq, List.mem_cons] at hq ⊢
        intro hx
        exact hq (Or.inr hx)
      simp only [List.length_cons]
      omega
    · have hvt : v ∈ t := by
        rcases List.mem_cons.mp hv with h | h
        · exact absurd h.symm hev
        · exact h
      by_cases het : e ∈ vis
      · rw [List.filter_cons_of_neg (by simp [het]),
          List.filter_cons_of_neg (by simpa using het)]
        exact ih hvt
      · rw [List.filter_cons_of_pos (by simp [het, hev]),
          List.filter_cons_of_pos (by simpa using het)]
        simpa using ih hvt

/-! ### Depth-first search: the recursion stack is restored on a `false`
return and the visited set only grows -/

theorem dfsScan_restore
    (visitF : α → List α → List α → Bool × List α × List α)
    (HF : ∀ b vis gr, (∀ g ∈ gr, g ∈ vis) → b ∉ vis →
      (∀ u ∈ vis, u ∈ (visitF b vis gr).2.1) ∧
      ((visitF b vis gr).1 = false → (visitF b vis gr).2.2 = gr))
    (v : α) :
    ∀ (rest : List (α × α)) (vis gr : List α),
      (∀ g ∈ gr, g ∈ vis) →
      (∀ u ∈ vis, u ∈ (dfsScan visitF v rest vis gr).2.1) ∧
      ((dfsScan visitF v rest vis gr).1 = false →
        (dfsScan visitF v rest vis gr).2.2 = gr) := by
  intro rest
  induction rest with
  | nil => intro vis gr _; exact ⟨fun u hu => hu, fun _ => rfl⟩
  | cons p rest ih =>
    intro vis gr hg
    obtain ⟨a, b⟩ := p
    rw [dfsScan]
    by_cases ha : a = v
    · rw [if_pos ha]
      by_cases hbv : b ∈ vis
      · rw [if_pos hbv]
        by_cases hbg : b ∈ gr
        · rw [if_pos hbg]
          exact ⟨fun u hu => hu, by simp⟩
        · rw [if_neg hbg]
          exact ih vis gr hg
      · rw [if_neg hbv]
        obtain ⟨hmono, hrest⟩ := HF b vis gr hg hbv
        rcases hres : visitF b vis gr with ⟨r, vis₁, gr₁⟩
        rw [hres] at hmono hrest
        cases r with
        | true =>
          refine ⟨fun u hu => hmono u hu, ?_⟩
          intro hfalse
          exact absurd hfalse (by simp)
        | false =>
          have hgr₁ : gr₁ = gr := hrest rfl
          rw [hgr₁]
          obtain ⟨hmono', hrest'⟩ := ih vis₁ gr (fun g hg' => hmono g (hg g hg'))
          exact ⟨fun u hu => hmono' u (hmono u hu), hrest'⟩
    · rw [if_neg ha]
      exact ih vis gr hg

theorem dfsVisit_restore (E : List (α × α)) :
    ∀ (fuel : Nat) (v : α) (vis gr : List α),
      (∀ g ∈ gr, g ∈ vis) → v ∉ vis →
      (∀ u ∈ vis, u ∈ (dfsVisit E fuel v vis gr).2.1) ∧
      ((dfsVisit E fuel v vis gr).1 = false →
        (dfsVisit E fuel v vis gr).2.2 = gr) := by
  intro fuel
  induction fuel with
  | zero => intro v vis gr _ _; exact ⟨fun u hu => hu, fun _ => rfl⟩
  | succ fuel ih =>
    intro v vis gr hg hnv
    rw [dfsVisit]
    obtain ⟨hmono, hrest⟩ := dfsScan_restore (dfsVisit E fuel)
      (fun b vis' gr' hg' hb' => ih b vis' gr' hg' hb') v E (v :: vis) (v :: gr)
      (fun g hg' => by
        rcases List.mem_cons.mp hg' with rfl | hg''
        · exact List.mem_cons_self _ _
        · exact List.mem_cons_of_mem _ (hg g hg''))
    rcases hres : dfsScan (dfsVisit E fuel) v E (v :: vis) (v :: gr) with ⟨r, vis₁, gr₁⟩
    rw [hres] at hmono hrest
    cases r with
    | true =>
      refine ⟨fun u hu => hmono u (List.mem_cons_of_mem _ hu), ?_⟩
      intro hfalse
      exact absurd hfalse (by simp)
    | false =>
      refine ⟨fun u hu => hmono u (List.mem_cons_of_mem _ hu), fun _ => ?_⟩
      have hgr₁ : gr₁ = v :: gr := hrest rfl
      show gr₁.erase v = gr
      rw [hgr₁]
      exact List.erase_cons_head v gr

/-! ### Depth-first search: a `true` result exhibits a cycle -/

theorem dfsScan_sound {E : List (α × α)}
    (visitF : α → List α → List α → Bool × List α × List α)
    (HFr : ∀ b vis gr, (∀ g ∈ gr, g ∈ vis) → b ∉ vis →
      (∀ u ∈ vis, u ∈ (visitF b vis gr).2.1) ∧
      ((visitF b vis gr).1 = false → (visitF b vis gr).2.2 = gr))
    (HFs : ∀ b vis gr, (∀ g ∈ gr, g ∈ vis) → b ∉ vis → (∀ g ∈ gr, Reach E g b) →
      (visitF b vis gr).1 = true → HasCycle E)
    (v : α) :
    ∀ (rest : List (α × α)) (vis gr : List α),
      (∀ p ∈ rest, p ∈ E) →
      (∀ g ∈ gr, g ∈ vis) →
      (∀ g ∈ gr, Reach E g v) →
      v ∈ gr →
      (dfsScan visitF v rest vis gr).1 = true → HasCycle E := by
  intro rest
  induction rest with
  | nil => intro vis gr _ _ _ _ h; exact absurd h (by simp [dfsScan])
  | cons p rest ih =>
    intro vis gr hrest hg hreach hvgr h
    obtain ⟨a, b⟩ := p
    have hrest' : ∀ q ∈ rest, q ∈ E := fun q hq => hrest q (List.mem_cons_of_mem _ hq)
    rw [dfsScan] at h
    by_cases ha : a = v
    · rw [if_pos ha] at h
      subst ha
      have hedge : (a, b) ∈ E := hrest (a, b) (List.mem_cons_self _ _)
      by_cases hbv : b ∈ vis
      · rw [if_pos hbv] at h
        by_cases hbg : b ∈ gr
        · obtain ⟨n, hpath⟩ := hreach b hbg
          exact ⟨b, n, PathTo.tail hpath hedge⟩
        · rw [if_neg hbg] at h
          exact ih vis gr hrest' hg hreach hvgr h
      · rw [if_neg hbv] at h
        rcases hres : visitF b vis gr with ⟨r, vis₁, gr₁⟩
        rw [hres] at h
        cases r with
        | true =>
          refine HFs b vis gr hg hbv ?_ (by rw [hres])
          intro g hg'
          exact (hreach g hg').trans (Reach.of_edge hedge)
        | false =>
          obtain ⟨hmono, hrestore⟩ := HFr b vis gr hg hbv
          rw [hres] at hmono hrestore
          have hgr₁ : gr₁ = gr := hrestore rfl
          rw [hgr₁] at h
          exact ih vis₁ gr hrest' (fun g hg' => hmono g (hg g hg')) hreach hvgr h
    · rw [if_neg ha] at h
      exact ih vis gr hrest' hg hreach hvgr h

theorem dfsVisit_sound {E : List (α × α)} :
    ∀ (fuel : Nat) (v : α) (vis gr : List α),
      (∀ g ∈ gr, g ∈ vis) → v ∉ vis → (∀ g ∈ gr, Reach E g v) →
      (dfsVisit E fuel v vis gr).1 = true → HasCycle E := by
  intro fuel
  induction fuel with
  | zero => intro v vis gr _ _ _ h; exact absurd h (by simp [dfsVisit])
  | succ fuel ih =>
    intro v vis gr hg hnv hreach h
    rw [dfsVisit] at h
    rcases hres : dfsScan (dfsVisit E fuel) v E (v :: vis) (v :: gr) with ⟨r, vis₁, gr₁⟩
    rw [hres] at h
    cases r with
    | false => simp at h
    | true =>
      refine dfsScan_sound (dfsVisit E fuel)
        (fun b vis' gr' hg' hb' => dfsVisit_restore E fuel b vis' gr' hg' hb')
        (fun b vis' gr' hg' hb' hre' => ih b vis' gr' hg' hb' hre')
        v E (v :: vis) (v :: gr) (fun q hq => hq) ?_ ?_ (List.mem_cons_self _ _)
        (by rw [hres])
      · intro g hg'
        rcases List.mem_cons.mp hg' with rfl | hg''
        · exact List.mem_cons_self _ _
        · exact List.mem_cons_of_mem _ (hg g hg'')
      · intro g hg'
        rcases List.mem_cons.mp hg' with rfl | hg''
        · exact Reach.refl g
        · exact hreach g hg''

theorem cfcLoop_sound {E : List (α × α)} (fuel : Nat) :
    ∀ (todo vis : List α),
      cfcLoop E fuel todo vis [] = true → HasCycle E := by
  intro todo
  induction todo with
  | nil => intro vis h; exact absurd h (by simp [cfcLoop])
  | cons e rest ih =>
    intro vis h
    rw [cfcLoop] at h
    by_cases he : e ∈ vis
    · rw [if_pos he] at h
      exact ih vis h
    · rw [if_neg he] at h
      rcases hres : dfsVisit E fuel e vis [] with ⟨r, vis₁, gr₁⟩
      rw [hres] at h
      cases r with
      | true =>
        exact dfsVisit_sound fuel e vis [] (by simp) he (by simp) (by rw [hres])
      | false =>
        obtain ⟨-, hrestore⟩ := dfsVisit_restore E fuel e vis [] (by simp) he
        rw [hres] at hrestore
        have hgr₁ : gr₁ = [] := hrestore rfl
        rw [hgr₁] at h
        exact ih vis₁ h

/-- If `check_for_cycles` reports a cycle, the edge list has one. -/
theorem cfc_sound {elements : List α} {E : List (α × α)}
    (h : check_for_cycles elements E = true) : HasCycle E :=
  cfcLoop_sound (elements.length + 1) elements [] h

/-! ### Depth-first search: a `false` run establishes acyclicity of the
visited region -/

theorem dfsScan_complete {E : List (α × α)} {elements : List α}
    (hE : ∀ p ∈ E, p.1 ∈ elements ∧ p.2 ∈ elements) (fuel : Nat)
    (HC : ∀ (b : α) (vis gr vis' gr' : List α),
      b ∈ elements → b ∉ vis →
      (∀ u ∈ vis, u ∈ elements) →
      (∀ g ∈ gr, g ∈ vis) →
      unvisitedCount elements vis + 1 ≤ fuel →
      (∀ u ∈ vis, u ∉ gr → ∀ p ∈ E, p.1 = u → p.2 ∈ vis ∧ p.2 ∉ gr) →
      (∀ u ∈ vis, u ∉ gr → ∀ k, ¬ PathTo E u u (k + 1)) →
      dfsVisit E fuel b vis gr = (false, vis', gr') →
      gr' = gr ∧ (∀ u ∈ vis, u ∈ vis') ∧ b ∈ vis' ∧
        (∀ u ∈ vis', u ∈ elements) ∧
        (∀ u ∈ vis', u ∉ gr → ∀ p ∈ E, p.1 = u → p.2 ∈ vis' ∧ p.2 ∉ gr) ∧
        (∀ u ∈ vis', u ∉ gr → ∀ k, ¬ PathTo E u u (k + 1)))
    (v : α) :
    ∀ (rest : List (α × α)) (vis gr vis' gr' : List α),
      (∀ p ∈ rest, p ∈ E) →
      (∀ u ∈ vis, u ∈ elements) →
      (∀ g ∈ gr, g ∈ vis) →
      unvisitedCount elements vis + 1 ≤ fuel →
      (∀ u ∈ vis, u ∉ gr → ∀ p ∈ E, p.1 = u → p.2 ∈ vis ∧ p.2 ∉ gr) →
      (∀ u ∈ vis, u ∉ gr → ∀ k, ¬ PathTo E u u (k + 1)) →
      dfsScan (dfsVisit E fuel) v rest vis gr = (false, vis', gr') →
      gr' = gr ∧ (∀ u ∈ vis, u ∈ vis') ∧
        (∀ u ∈ vis', u ∈ elements) ∧
        (∀ u ∈ vis', u ∉ gr → ∀ p ∈ E, p.1 = u → p.2 ∈ vis' ∧ p.2 ∉ gr) ∧
        (∀ u ∈ vis', u ∉ gr → ∀ k, ¬ PathTo E u u (k + 1)) ∧
        (∀ p ∈ rest, p.1 = v → p.2 ∈ vis' ∧ p.2 ∉ gr) := by
  intro rest
  induction rest with
  | nil =>
    intro vis gr vis' gr' _ hvisel hg _ h1 h2 heq
    rw [dfsScan] at heq
    obtain ⟨rfl, rfl⟩ : vis = vis' ∧ gr = gr' := by
      have e1 := congrArg (fun t => t.2.1) heq
      have e2 := congrArg (fun t => t.2.2) heq
      exact ⟨e1, e2⟩
    exact ⟨rfl, fun u hu => hu, hvisel, h1, h2, by simp⟩
  | cons p rest ih =>
    intro vis gr vis' gr' hrest hvisel hg hfuel h1 h2 heq
    obtain ⟨a, b⟩ := p
    have hrest' : ∀ q ∈ rest, q ∈ E := fun q hq => hrest q (List.mem_cons_of_mem _ hq)
    rw [dfsScan] at heq
    by_cases ha : a = v
    · rw [if_pos ha] at heq
      by_cases hbv : b ∈ vis
      · rw [if_pos hbv] at heq
        by_cases hbg : b ∈ gr
        · rw [if_pos hbg] at heq
          exact absurd (congrArg (fun t => t.1) heq) (by simp)
        · rw [if_neg hbg] at heq
          obtain ⟨c1, c2, c3, c4, c5, c6⟩ :=
            ih vis gr vis' gr' hrest' hvisel hg hfuel h1 h2 heq
          refine ⟨c1, c2, c3, c4, c5, ?_⟩
          intro q hq hfst
          rcases List.mem_cons.mp hq with rfl | hq
          · exact ⟨c2 _ hbv, hbg⟩
          · exact c6 q hq hfst
      · rw [if_neg hbv] at heq
        rcases hres : dfsVisit E fuel b vis gr with ⟨r, vis₁, gr₁⟩
        rw [hres] at heq
        cases r with
        | true => exact absurd (congrArg (fun t => t.1) heq) (by simp)
        | false =>
          have hbel : b ∈ elements := (hE (a, b) (hrest (a, b) (List.mem_cons_self _ _))).2
          obtain ⟨hgr₁, hmono₁, hbvis₁, hel₁, hinv1₁, hinv2₁⟩ :=
            HC b vis gr vis₁ gr₁ hbel hbv hvisel hg hfuel h1 h2 hres
          rw [hgr₁] at heq
          have hfuel₁ : unvisitedCount elements vis₁ + 1 ≤ fuel :=
            le_trans (by have := @unvisitedCount_antitone α _ elements _ _ hmono₁; omega) hfuel
          obtain ⟨c1, c2, c3, c4, c5, c6⟩ :=
            ih vis₁ gr vis' gr' hrest' hel₁ (fun g hg' => hmono₁ g (hg g hg'))
              hfuel₁ hinv1₁ hinv2₁ heq
          refine ⟨c1, fun u hu => c2 u (hmono₁ u hu), c3, c4, c5, ?_⟩
          intro q hq hfst
          rcases List.mem_cons.mp hq with rfl | hq
          · exact ⟨c2 _ hbvis₁, fun hbgr => hbv (hg _ hbgr)⟩
          · exact c6 q hq hfst
    · rw [if_neg ha] at heq
      obtain ⟨c1, c2, c3, c4, c5, c6⟩ :=
        ih vis gr vis' gr' hrest' hvisel hg hfuel h1 h2 heq
      refine ⟨c1, c2, c3, c4, c5, ?_⟩
      intro q hq hfst
      rcases List.mem_cons.mp hq with rfl | hq
      · exact absurd hfst ha
      · exact c6 q hq hfst

theorem dfsVisit_complete {E : List (α × α)} {elements : List α}
    (hE : ∀ p ∈ E, p.1 ∈ elements ∧ p.2 ∈ elements) :
    ∀ (fuel : Nat) (v : α) (vis gr vis' gr' : List α),
      v ∈ elements → v ∉ vis →
      (∀ u ∈ vis, u ∈ elements) →
      (∀ g ∈ gr, g ∈ vis) →
      unvisitedCount elements vis + 1 ≤ fuel →
      (∀ u ∈ vis, u ∉ gr → ∀ p ∈ E, p.1 = u → p.2 ∈ vis ∧ p.2 ∉ gr) →
      (∀ u ∈ vis, u ∉ gr → ∀ k, ¬ PathTo E u u (k + 1)) →
      dfsVisit E fuel v vis gr = (false, vis', gr') →
      gr' = gr ∧ (∀ u ∈ vis, u ∈ vis') ∧ v ∈ vis' ∧
        (∀ u ∈ vis', u ∈ elements) ∧
        (∀ u ∈ vis', u ∉ gr → ∀ p ∈ E, p.1 = u → p.2 ∈ vis' ∧ p.2 ∉ gr) ∧
        (∀ u ∈ vis', u ∉ gr → ∀ k, ¬ PathTo E u u (k + 1)) := by
  intro fuel
  induction fuel with
  | zero =>
    intro v vis gr vis' gr' _ _ _ _ hfuel _ _ _
    exact absurd hfuel (by omega)
  | succ fuel ih =>
    intro v vis gr vis' gr' hv hnv hvisel hg hfuel h1 h2 heq
    rw [dfsVisit] at heq
    rcases hres : dfsScan (dfsVisit E fuel) v E (v :: vis) (v :: gr) with ⟨r, vis₁, gr₁⟩
    rw [hres] at heq
    cases r with
    | true => exact absurd (congrArg (fun t => t.1) heq) (by simp)
    | false =>
      have hvgr : v ∉ gr := fun h => hnv (hg v h)
      have hfuel₀ : unvisitedCount elements (v :: vis) + 1 ≤ fuel := by
        have := unvisitedCount_strict hv hnv
        omega
      obtain ⟨c1, c2, c3, c4, c5, c6⟩ :=
        dfsScan_complete hE fuel (fun b v1 g1 v2 g2 => ih b v1 g1 v2 g2) v E
          (v :: vis) (v :: gr) vis₁ gr₁ (fun q hq => hq)
          (fun u hu => by
            rcases List.mem_cons.mp hu with rfl | hu
            · exact hv
            · exact hvisel u hu)
          (fun g hg' => by
            rcases List.mem_cons.mp hg' with rfl | hg''
            · exact List.mem_cons_self _ _
            · exact List.mem_cons_of_mem _ (hg g hg''))
          hfuel₀
          (fun u hu hug p hp hfst => by
            have huvis : u ∈ vis := by
              rcases List.mem_cons.mp hu with rfl | hu'
              · exact absurd (List.mem_cons_self _ _) hug
              · exact hu'
            have hugr : u ∉ gr := fun h => hug (List.mem_cons_of_mem _ h)
            obtain ⟨hin, hnotgr⟩ := h1 u huvis hugr p hp hfst
            refine ⟨List.mem_cons_of_mem _ hin, ?_⟩
            intro hmem
            rcases List.mem_cons.mp hmem with h' | h'
            · exact hnv (h' ▸ hin)
            · exact hnotgr h')
          (fun u hu hug => by
            have huvis : u ∈ vis := by
              rcases List.mem_cons.mp hu with rfl | hu'
              · exact absurd (List.mem_cons_self _ _) hug
              · exact hu'
            exact h2 u huvis (fun h => hug (List.mem_cons_of_mem _ h)))
          hres
      have e1 : vis₁ = vis' := congrArg (fun t => t.2.1) heq
      have e2 : gr₁.erase v = gr' := congrArg (fun t => t.2.2) heq
      rw [← e1, ← e2]
      have hgr₁ : gr₁ = v :: gr := c1
      rw [hgr₁, List.erase_cons_head]
      have hsuccv : ∀ p ∈ E, p.1 = v → p.2 ∈ vis₁ ∧ p.2 ∉ v :: gr :=
        fun p hp hfst => c6 p hp hfst
      have hvv : v ∈ vis₁ := c2 v (List.mem_cons_self _ _)
      refine ⟨rfl, fun u hu => c2 u (List.mem_cons_of_mem _ hu), hvv, c3, ?_, ?_⟩
      · intro u hu hug p hp hfst
        by_cases huv : u = v
        · subst huv
          obtain ⟨hin, hngr⟩ := hsuccv p hp hfst
          exact ⟨hin, fun h => hngr (List.mem_cons_of_mem _ h)⟩
        · obtain ⟨hin, hngr⟩ := c4 u hu (by
            intro hmem
            rcases List.mem_cons.mp hmem with h' | h'
            · exact huv h'
            · exact hug h') p hp hfst
          exact ⟨hin, fun h => hngr (List.mem_cons_of_mem _ h)⟩
      · intro u hu hug k hcyc
        by_cases huv : u = v
        · subst huv
          obtain ⟨b, hub, hpath⟩ := PathTo.head_cases hcyc
          obtain ⟨hbvis, hbgr⟩ := hsuccv (u, b) hub rfl
          have hblack := pathTo_black_closed c4 hbvis hbgr hpath
          exact hblack.2 (List.mem_cons_self _ _)
        · exact c5 u hu (by
            intro hmem
            rcases List.mem_cons.mp hmem with h' | h'
            · exact huv h'
            · exact hug h') k hcyc

theorem cfcLoop_complete {E : List (α × α)} {elements : List α}
    (hE : ∀ p ∈ E, p.1 ∈ elements ∧ p.2 ∈ elements) :
    ∀ (todo vis : List α),
      (∀ e ∈ todo, e ∈ elements) →
      (∀ u ∈ vis, u ∈ elements) →
      (∀ u ∈ vis, ∀ p ∈ E, p.1 = u → p.2 ∈ vis) →
      (∀ u ∈ vis, ∀ k, ¬ PathTo E u u (k + 1)) →
      cfcLoop E (elements.length + 1) todo vis [] = false →
      ∀ x, (x ∈ todo ∨ x ∈ vis) → ∀ k, ¬ PathTo E x x (k + 1) := by
  intro todo
  induction todo with
  | nil =>
    intro vis _ _ _ h2 _ x hx
    rcases hx with hx | hx
    · simp at hx
    · exact h2 x hx
  | cons e rest ih =>
    intro vis htodo hvisel h1 h2 hloop x hx
    rw [cfcLoop] at hloop
    by_cases he : e ∈ vis
    · rw [if_pos he] at hloop
      refine ih vis (fun u hu => htodo u (List.mem_cons_of_mem _ hu)) hvisel h1 h2 hloop x ?_
      rcases hx with hx | hx
      · rcases List.mem_cons.mp hx with rfl | hx
        · exact Or.inr he
        · exact Or.inl hx
      · exact Or.inr hx
    · rw [if_neg he] at hloop
      rcases hres : dfsVisit E (elements.length + 1) e vis [] with ⟨r, vis₁, gr₁⟩
      rw [hres] at hloop
      cases r with
      | true => simp at hloop
      | false =>
        obtain ⟨hgr₁, hmono₁, hevis₁, hel₁, hinv1₁, hinv2₁⟩ :=
          dfsVisit_complete hE (elements.length + 1) e vis [] vis₁ gr₁
            (htodo e (List.mem_cons_self _ _)) he hvisel (by simp)
            (by have := unvisitedCount_le elements vis; omega)
            (fun u hu _ p hp hfst => ⟨h1 u hu p hp hfst, by simp⟩)
            (fun u hu _ => h2 u hu) hres
        rw [hgr₁] at hloop
        refine ih vis₁ (fun u hu => htodo u (List.mem_cons_of_mem _ hu)) hel₁
          (fun u hu p hp hfst => (hinv1₁ u hu (by simp) p hp hfst).1)
          (fun u hu => hinv2₁ u hu (by simp)) hloop x ?_
        rcases hx with hx | hx
        · rcases List.mem_cons.mp hx with rfl | hx
          · exact Or.inr hevis₁
          · exact Or.inl hx
        · exact Or.inr (hmono₁ x hx)

/-- If `check_for_cycles` reports no cycle and every edge endpoint belongs
to the element list, the edge list is acyclic. -/
theorem cfc_complete {elements : List α} {E : List (α × α)}
    (hE : ∀ p ∈ E, p.1 ∈ elements ∧ p.2 ∈ elements)
    (h : check_for_cycles elements E = false) : ¬ HasCycle E := by
  rintro ⟨x, k, hcyc⟩
  have hx : x ∈ elements := by
    cases hcyc with
    | tail hp he => exact (hE _ he).2
  exact cfcLoop_complete hE elements [] (fun e he => he) (by simp)
    (by simp) (by simp) h x (Or.inl hx) k hcyc

/-! ### Assembling `construct` -/

theorem build_hasse_endpoints {elements : List α} {relations : List (α × α)}
    (hend : ∀ p ∈ relations, p.1 ∈ elements ∧ p.2 ∈ elements) :
    ∀ p ∈ build_hasse_diagram relations, p.1 ∈ elements ∧ p.2 ∈ elements :=
  fun p hp => hend p ((build_hasse_sublist relations).subset hp)

theorem construct_invalidOrder_iff {elements : List α} {relations : List (α × α)}
    (hend : ∀ p ∈ relations, p.1 ∈ elements ∧ p.2 ∈ elements) :
    construct elements relations = BuildResult.invalidOrder ↔
      HasCycle (build_hasse_diagram relations) := by
  simp only [construct]
  by_cases hc : check_for_cycles elements (build_hasse_diagram relations) = true
  · rw [if_pos hc]
    exact ⟨fun _ => cfc_sound hc, fun _ => rfl⟩
  · rw [if_neg hc]
    have hacyc : ¬ HasCycle (build_hasse_diagram relations) :=
      cfc_complete (build_hasse_endpoints hend) (by simpa using hc)
    rcases hruns : runPasses (build_hasse_diagram relations)
        (elements.length + 1) (fun _ => 0) with _ | lv
    · simp only
      exact ⟨fun h => absurd h (by simp), fun h => absurd h hacyc⟩
    · simp only
      exact ⟨fun h => absurd h (by simp), fun h => absurd h hacyc⟩

theorem construct_ok_of_acyclic {elements : List α} {relations : List (α × α)}
    (hend : ∀ p ∈ relations, p.1 ∈ elements ∧ p.2 ∈ elements)
    (hacyc : ¬ HasCycle (build_hasse_diagram relations)) :
    ∃ d, construct elements relations = BuildResult.ok d := by
  simp only [construct]
  have hc : check_for_cycles elements (build_hasse_diagram relations) = false := by
    by_cases h : check_for_cycles elements (build_hasse_diagram relations) = true
    · exact absurd (cfc_sound h) hacyc
    · simpa using h
  rw [hc]
  simp only [Bool.false_eq_true, if_false]
  obtain ⟨lv, hlv⟩ := runPasses_terminates (build_hasse_endpoints hend) hacyc
  have hlv' : runPasses (build_hasse_diagram relations) (elements.length + 1)
      (fun _ => 0) = some lv :=
    runPasses_fuel_mono _ _ _ hlv _ (max_le (by omega) (by omega))
  rw [hlv']
  exact ⟨_, rfl⟩

theorem construct_ok_elim {elements : List α} {relations : List (α × α)}
    {d : PosetData α} (h : construct elements relations = BuildResult.ok d) :
    d.hasse_relations = build_hasse_diagram relations ∧
    ∃ lv, runPasses (build_hasse_diagram relations) (elements.length + 1)
        (fun _ => 0) = some lv ∧
      d.levels = elements.map fun e => (e, lv e) := by
  simp only [construct] at h
  by_cases hc : check_for_cycles elements (build_hasse_diagram relations) = true
  · rw [if_pos hc] at h
    exact absurd h (by simp)
  · rw [if_neg hc] at h
    rcases hruns : runPasses (build_hasse_diagram relations)
        (elements.length + 1) (fun _ => 0) with _ | lv
    · rw [hruns] at h
      exact absurd h (by simp)
    · rw [hruns] at h
      have hd : (⟨build_hasse_diagram relations,
          elements.map fun e => (e, lv e)⟩ : PosetData α) = d := by
        simpa using h
      exact ⟨by rw [← hd], lv, rfl, by rw [← hd]⟩

/-! ### Claim theorems -/

/-- C1 (counterexample to the claim as stated): the poset on elements
`[0, 1]` with the single relation `(0, 1)` constructs successfully, every
unordered pair of distinct elements (there is only the pair `0, 1`) has a
single non-none upper-bound candidate (`1`) and a single non-none
lower-bound candidate (`0`), yet `is_lattice` returns `false`: the Python
code tests the returned bound with `not`, and the returned element `0` is
falsy. -/
theorem C1_counterexample :
    construct ([0, 1] : List Int) [(0, 1)] =
      BuildResult.ok ⟨[(0, 1)], [(0, 0), (1, 1)]⟩ ∧
    upper_bound ([0, 1] : List Int) [(0, 1)] 0 1 = some 1 ∧
    lower_bound ([0, 1] : List Int) [(0, 1)] 0 1 = some 0 ∧
    is_lattice intTruthy ([0, 1] : List Int) [(0, 1)] = false := by
  decide

/-- C1 (amended): `is_lattice()` returns true iff, for every unordered pair
of distinct elements, `upper_bound` and `lower_bound` each return a single
candidate that is truthy in the element type (non-none and not a falsy
value such as the integer 0 or the empty string).  For element sets all of
whose elements are truthy this coincides with the claimed non-none
condition. -/
theorem C1_amended (truthy : α → Bool) (elements : List α) (E : List (α × α))
    (hnd : elements.Nodup) :
    is_lattice truthy elements E = true ↔
      ∀ x ∈ elements, ∀ y ∈ elements, x ≠ y →
        (∃ u, upper_bound elements E x y = some u ∧ truthy u = true) ∧
        (∃ v, lower_bound elements E x y = some v ∧ truthy v = true) :=
  is_lattice_iff truthy hnd E

/-- Witness for C1 (amended), on the two-chain poset over `[1, 2]`. -/
theorem C1_witness :
    is_lattice intTruthy ([1, 2] : List Int) [(1, 2)] = true := by
  refine (C1_amended intTruthy [1, 2] [(1, 2)] (by decide)).mpr ?_
  intro x hx y hy hne
  have hx' : x = 1 ∨ x = 2 := by simpa using hx
  have hy' : y = 1 ∨ y = 2 := by simpa using hy
  rcases hx' with rfl | rfl <;> rcases hy' with rfl | rfl
  · exact absurd rfl hne
  · exact ⟨⟨2, by decide, by decide⟩, ⟨1, by decide, by decide⟩⟩
  · exact ⟨⟨2, by decide, by decide⟩, ⟨1, by decide, by decide⟩⟩
  · exact absurd rfl hne

/-- C2: for any two elements of a duplicate-free element list,
`upper_bound(x, y)` returns (totally, without raising) `some z` exactly when
`z` is the unique member of the set U of elements reachable from both `x`
and `y` such that every `u` in U reaches `z`, and `none` otherwise;
`lower_bound` behaves symmetrically with the set L of elements that reach
both `x` and `y` and the condition that `z` reaches every `u` in L. -/
theorem C2_bound_computation (elements : List α) (E : List (α × α)) (x y : α)
    (hnd : elements.Nodup) (_hx : x ∈ elements) (_hy : y ∈ elements) :
    (∀ z, upper_bound elements E x y = some z ↔
      (z ∈ elements ∧ has_path E x z = true ∧ has_path E y z = true ∧
        (∀ u ∈ elements, has_path E x u = true → has_path E y u = true →
          has_path E u z = true) ∧
        ∀ w ∈ elements, has_path E x w = true → has_path E y w = true →
          (∀ u ∈ elements, has_path E x u = true → has_path E y u = true →
            has_path E u w = true) → w = z)) ∧
    (∀ z, lower_bound elements E x y = some z ↔
      (z ∈ elements ∧ has_path E z x = true ∧ has_path E z y = true ∧
        (∀ u ∈ elements, has_path E u x = true → has_path E u y = true →
          has_path E z u = true) ∧
        ∀ w ∈ elements, has_path E w x = true → has_path E w y = true →
          (∀ u ∈ elements, has_path E u x = true → has_path E u y = true →
            has_path E w u = true) → w = z)) := by
  constructor
  · intro z
    rw [upper_bound_eq_some_iff hnd E x y]
    simp only [Bool.and_eq_true, and_imp, and_assoc]
  · intro z
    rw [lower_bound_eq_some_iff hnd E x y]
    simp only [Bool.and_eq_true, and_imp, and_assoc]

/-- Witness for C2 on the two-chain poset over `[1, 2]`. -/
theorem C2_witness :
    upper_bound ([1, 2] : List Int) [(1, 2)] 1 2 = some 2 ∧
    lower_bound ([1, 2] : List Int) [(1, 2)] 1 2 = some 1 :=
  ⟨((C2_bound_computation [1, 2] [(1, 2)] 1 2 (by decide) (by decide)
      (by decide)).1 2).mpr (by decide),
   ((C2_bound_computation [1, 2] [(1, 2)] 1 2 (by decide) (by decide)
      (by decide)).2 1).mpr (by decide)⟩

/-- C3: assuming every relation endpoint belongs to the element set,
construction fails with the cycle error (`invalidOrder`) iff the derived
covering-edge list contains a directed cycle; when no cycle exists the
construction instead produces a usable `PosetData` (in the error case no
`PosetData` exists and rank assignment never runs, by the shape of
`BuildResult`). -/
theorem C3_cycle_detection (elements : List α) (relations : List (α × α))
    (hend : ∀ p ∈ relations, p.1 ∈ elements ∧ p.2 ∈ elements) :
    (construct elements relations = BuildResult.invalidOrder ↔
      HasCycle (build_hasse_diagram relations)) ∧
    (¬ HasCycle (build_hasse_diagram relations) →
      ∃ d, construct elements relations = BuildResult.ok d) :=
  ⟨construct_invalidOrder_iff hend, construct_ok_of_acyclic hend⟩

/-- Witness for C3: Scenario B, elements `[1, 2, 3]` with the cyclic
relations `[(1,2),(2,3),(3,1)]`, fails construction with the cycle error. -/
theorem C3_witness :
    construct ([1, 2, 3] : List Int) [(1, 2), (2, 3), (3, 1)] =
      BuildResult.invalidOrder := by
  refine (C3_cycle_detection [1, 2, 3] [(1, 2), (2, 3), (3, 1)] (by decide)).1.mpr ⟨1, 2, ?_⟩
  have h1 : PathTo (build_hasse_diagram [((1 : Int), 2), (2, 3), (3, 1)]) 1 2 1 :=
    PathTo.single (by decide)
  have h2 : PathTo (build_hasse_diagram [((1 : Int), 2), (2, 3), (3, 1)]) 1 3 2 :=
    PathTo.tail h1 (by decide)
  exact PathTo.tail h2 (by decide)

/-- C4: the covering-edge list equals the raw relation list with exactly
those pairs removed for which raw relations `(a, b)` and `(b, d)` exist
(the pair itself being raw); the removal happens in one step against the
raw list only, never re-chained against the already-reduced list — the
right-hand sides below mention only the raw `relations`. -/
theorem C4_reduction (relations : List (α × α)) :
    build_hasse_diagram relations = spec_reduced relations ∧
    ∀ r : α × α, r ∈ build_hasse_diagram relations ↔
      r ∈ relations ∧ ¬ ∃ m, (r.1, m) ∈ relations ∧ (m, r.2) ∈ relations :=
  ⟨build_hasse_eq_spec_reduced relations, fun _ => mem_build_hasse⟩

/-- C5: every successfully constructed poset assigns each element a
non-negative integer rank, and every covering edge `(a, b)` satisfies
`rank a < rank b` strictly. -/
theorem C5_rank_invariant (elements : List α) (relations : List (α × α))
    (d : PosetData α) (h : construct elements relations = BuildResult.ok d) :
    (∀ e ∈ elements, ∃ r, (e, r) ∈ d.levels ∧ 0 ≤ r) ∧
    (∀ pr ∈ d.levels, 0 ≤ pr.2) ∧
    (∀ p ∈ d.hasse_relations, ∀ ra rb, (p.1, ra) ∈ d.levels →
      (p.2, rb) ∈ d.levels → ra < rb) := by
  obtain ⟨hhasse, lv, hruns, hlev⟩ := construct_ok_elim h
  have hnn : ∀ x, 0 ≤ lv x := runPasses_nonneg _ _ _ (fun _ => le_refl 0) hruns
  have hstrict := runPasses_strict hruns
  have hmem : ∀ {e : α} {r : Int}, (e, r) ∈ d.levels → r = lv e := by
    intro e r hm
    rw [hlev] at hm
    obtain ⟨e', he', heq⟩ := List.mem_map.mp hm
    have h1 : e' = e := congrArg Prod.fst heq
    have h2 : lv e' = r := congrArg Prod.snd heq
    rw [← h2, h1]
  refine ⟨?_, ?_, ?_⟩
  · intro e he
    exact ⟨lv e, by rw [hlev]; exact List.mem_map.mpr ⟨e, he, rfl⟩, hnn e⟩
  · intro pr hpr
    rw [hlev] at hpr
    obtain ⟨e', he', heq⟩ := List.mem_map.mp hpr
    rw [← heq]
    exact hnn e'
  · intro p hp ra rb hra hrb
    rw [hmem hra, hmem hrb]
    rw [hhasse] at hp
    exact hstrict p hp

/-- Witness for C5 on Scenario A: construction succeeds with the computed
levels, rank 1 of element 1 is non-negative, and the covering edge
`(1, 2)` relates rank 1 to the strictly larger rank 2. -/
theorem C5_witness :
    construct ([1, 2, 3, 4, 5, 6, 7, 8, 9] : List Int)
      [(1, 2), (1, 3), (1, 6), (2, 4), (3, 4), (5, 1), (6, 4), (1, 7), (4, 8), (4, 9), (1, 4)] =
      BuildResult.ok ⟨[(1, 2), (1, 3), (1, 6), (2, 4), (3, 4), (5, 1), (6, 4), (1, 7), (4, 8), (4, 9)],
        [(1, 1), (2, 2), (3, 2), (4, 3), (5, 0), (6, 2), (7, 2), (8, 4), (9, 4)]⟩ ∧
    (0 : Int) ≤ 1 ∧ (1 : Int) < 2 :=
  ⟨by decide,
   (C5_rank_invariant [1, 2, 3, 4, 5, 6, 7, 8, 9]
      [(1, 2), (1, 3), (1, 6), (2, 4), (3, 4), (5, 1), (6, 4), (1, 7), (4, 8), (4, 9), (1, 4)]
      ⟨[(1, 2), (1, 3), (1, 6), (2, 4), (3, 4), (5, 1), (6, 4), (1, 7), (4, 8), (4, 9)],
        [(1, 1), (2, 2), (3, 2), (4, 3), (5, 0), (6, 2), (7, 2), (8, 4), (9, 4)]⟩ (by decide)).2.1 (1, 1) (by decide),
   (C5_rank_invariant [1, 2, 3, 4, 5, 6, 7, 8, 9]
      [(1, 2), (1, 3), (1, 6), (2, 4), (3, 4), (5, 1), (6, 4), (1, 7), (4, 8), (4, 9), (1, 4)]
      ⟨[(1, 2), (1, 3), (1, 6), (2, 4), (3, 4), (5, 1), (6, 4), (1, 7), (4, 8), (4, 9)],
        [(1, 1), (2, 2), (3, 2), (4, 3), (5, 0), (6, 2), (7, 2), (8, 4), (9, 4)]⟩ (by decide)).2.2 (1, 2) (by decide) 1 2 (by decide) (by decide)⟩

/-- C6 (counterexample to the claim as stated): with the empty element set
(and hence the empty, trivially acyclic covering-edge list) the
rank-relaxation loop still executes one full pass — the `while changed`
loop starts with `changed = True` — so it does not terminate within
`|elements| = 0` passes; it terminates within one pass. -/
theorem C6_counterexample :
    build_hasse_diagram ([] : List (Int × Int)) = [] ∧
    runPasses ([] : List (Int × Int)) 0 (fun _ => 0) = none ∧
    (runPasses ([] : List (Int × Int)) 1 (fun _ => 0)).isSome = true :=
  ⟨rfl, rfl, rfl⟩

/-- C6 (amended): under the precondition that every covering-edge endpoint
belongs to the (finite) element list and the covering-edge list is acyclic,
the rank-relaxation loop terminates, within at most `max 1 |elements|` full
passes over the covering-edge list (so within `|elements|` passes whenever
the element set is nonempty). -/
theorem C6_amended (elements : List α) (E : List (α × α))
    (hend : ∀ p ∈ E, p.1 ∈ elements ∧ p.2 ∈ elements)
    (hacyc : ¬ HasCycle E) :
    ∃ lv, runPasses E (max 1 elements.length) (fun _ => 0) = some lv :=
  runPasses_terminates hend hacyc

/-- Witness for C6 (amended) on the two-chain poset over `[1, 2]`;
acyclicity is obtained from the cycle detector's own verdict. -/
theorem C6_witness :
    (runPasses [((1 : Int), 2)] (max 1 ([1, 2] : List Int).length)
      (fun _ => 0)).isSome = true := by
  obtain ⟨lv, hlv⟩ := C6_amended ([1, 2] : List Int) [(1, 2)] (by decide)
    (@cfc_complete Int _ [1, 2] [(1, 2)] (by decide) (by decide))
  rw [hlv]
  rfl

/-- C7: the reachability query is reflexive and transitive over the
covering edges. -/
theorem C7_reachability (E : List (α × α)) :
    (∀ x, has_path E x x = true) ∧
    (∀ a b c, has_path E a b = true → has_path E b c = true →
      has_path E a c = true) := by
  constructor
  · intro x
    simp [has_path]
  · intro a b c hab hbc
    rw [has_path_iff_reach] at hab hbc ⊢
    exact hab.trans hbc

/-- Witness for C7: transitivity applied along the chain `1 → 2 → 3`. -/
theorem C7_witness :
    has_path [((1 : Int), 2), (2, 3)] 1 3 = true :=
  (C7_reachability [((1 : Int), 2), (2, 3)]).2 1 2 3 (by decide) (by decide)

/-- C8: Scenario A — construction succeeds on elements `1..9` with the
eleven listed relations, and the covering-edge list is the raw list with
exactly `(1, 4)` removed; each of the two-hop chains `(1,2),(2,4)`,
`(1,3),(3,4)` and `(1,6),(6,4)` is present in the raw list and witnesses
`(1, 4)` as a shortcut. -/
theorem C8_scenarioA :
    construct ([1, 2, 3, 4, 5, 6, 7, 8, 9] : List Int)
      [(1, 2), (1, 3), (1, 6), (2, 4), (3, 4), (5, 1), (6, 4), (1, 7), (4, 8), (4, 9), (1, 4)] =
      BuildResult.ok ⟨[(1, 2), (1, 3), (1, 6), (2, 4), (3, 4), (5, 1), (6, 4), (1, 7), (4, 8), (4, 9)],
        [(1, 1), (2, 2), (3, 2), (4, 3), (5, 0), (6, 2), (7, 2), (8, 4), (9, 4)]⟩ ∧
    build_hasse_diagram
      [((1 : Int), 2), (1, 3), (1, 6), (2, 4), (3, 4), (5, 1), (6, 4), (1, 7), (4, 8), (4, 9), (1, 4)] =
      [(1, 2), (1, 3), (1, 6), (2, 4), (3, 4), (5, 1), (6, 4), (1, 7), (4, 8), (4, 9)] := by
  decide

/-- C9: reduction is witness-limited — on the input
`[(1,2),(2,3),(3,4),(1,4)]` the pair `(1, 4)` is implied by the three-hop
chain `1 → 2 → 3 → 4` but no raw two-hop chain `(1, m),(m, 4)` exists, so
`(1, 4)` survives the reduction. -/
theorem C9_three_hop :
    ((1, 2) ∈ ([(1, 2), (2, 3), (3, 4), (1, 4)] : List (Int × Int)) ∧
      (2, 3) ∈ ([(1, 2), (2, 3), (3, 4), (1, 4)] : List (Int × Int)) ∧
      (3, 4) ∈ ([(1, 2), (2, 3), (3, 4), (1, 4)] : List (Int × Int)) ∧
      (1, 4) ∈ ([(1, 2), (2, 3), (3, 4), (1, 4)] : List (Int × Int))) ∧
    (¬ ∃ p ∈ ([(1, 2), (2, 3), (3, 4), (1, 4)] : List (Int × Int)),
      p.1 = 1 ∧ (p.2, 4) ∈ ([(1, 2), (2, 3), (3, 4), (1, 4)] : List (Int × Int))) ∧
    PathTo ([(1, 2), (2, 3), (3, 4), (1, 4)] : List (Int × Int)) 1 4 3 ∧
    (1, 4) ∈ build_hasse_diagram ([(1, 2), (2, 3), (3, 4), (1, 4)] : List (Int × Int)) :=
  ⟨by decide, by decide,
   by
     have h1 : PathTo ([(1, 2), (2, 3), (3, 4), (1, 4)] : List (Int × Int)) 1 2 1 :=
       PathTo.single (by decide)
     have h2 : PathTo ([(1, 2), (2, 3), (3, 4), (1, 4)] : List (Int × Int)) 1 3 2 :=
       PathTo.tail h1 (by decide)
     exact PathTo.tail h2 (by decide),
   by decide⟩

/-- C10: reduction never adds edges — the covering-edge list is a
subsequence of the raw relation list (order preserved, every covering edge
literally a raw pair); every occurrence of a pair with a raw two-hop
witness is dropped, and all occurrences of any other pair survive. -/
theorem C10_subsequence (relations : List (α × α)) :
    (build_hasse_diagram relations).Sublist relations ∧
    (∀ r ∈ build_hasse_diagram relations, r ∈ relations) ∧
    (∀ r : α × α, (∃ p ∈ relations, p.1 = r.1 ∧ (p.2, r.2) ∈ relations) →
      (build_hasse_diagram relations).count r = 0) ∧
    (∀ r : α × α, ¬ (∃ p ∈ relations, p.1 = r.1 ∧ (p.2, r.2) ∈ relations) →
      (build_hasse_diagram relations).count r = relations.count r) := by
  refine ⟨build_hasse_sublist _, fun r hr => (mem_build_hasse.mp hr).1, ?_, ?_⟩
  · intro r h
    apply count_build_hasse_removed
    obtain ⟨p, hp, hfst, hsnd⟩ := h
    exact ⟨p.2, by rw [← hfst]; simpa using hp, hsnd⟩
  · intro r h
    apply count_build_hasse_kept
    rintro ⟨m, h1, h2⟩
    exact h ⟨(r.1, m), h1, rfl, h2⟩

/-- Witness for C10: in `[(1,2),(2,4),(1,4)]` the shortcut `(1, 4)` is
dropped entirely while the count of the kept pair `(1, 2)` is preserved. -/
theorem C10_witness :
    (build_hasse_diagram [((1 : Int), 2), (2, 4), (1, 4)]).count (1, 4) = 0 ∧
    (build_hasse_diagram [((1 : Int), 2), (2, 4), (1, 4)]).count (1, 2) =
      ([((1 : Int), 2), (2, 4), (1, 4)]).count (1, 2) :=
  ⟨(C10_subsequence [((1 : Int), 2), (2, 4), (1, 4)]).2.2.1 (1, 4)
      ⟨(1, 2), by decide, by decide, by decide⟩,
   (C10_subsequence [((1 : Int), 2), (2, 4), (1, 4)]).2.2.2 (1, 2) (by decide)⟩

end HassePoset
